import Mathlib

/-!
Verification of the legalbot-rag retrieval core against its specification.

The TypeScript sources under `src/ingestion/embedder.ts` (which also contains
the chunker), `src/retrieval/reranker.ts` and `src/retrieval/localVectorStore.ts`
are shallowly embedded here:

* JS strings are modelled as `List Char`;
* JS numbers carrying scores / vector components are modelled as `ℚ`;
* `Math.sqrt` (whose exact values none of the verified properties depend on)
  is an explicit function parameter `sqrt : ℚ → ℚ`;
* fallible code returns `Except` or `Option`; in particular the reranker's
  `LEGAL_TERM_BOOST[term]` access is modelled with the prototype chain of
  the plain object literal, so a lowercased query term spelling an inherited
  `Object.prototype` key ("constructor", "__proto__") reaches a truthy
  non-iterable member and the `for...of` over it throws, aborting `rerank`;
* the JS regexes of the chunker are compiled to deterministic scanners that
  reproduce the backtracking behaviour of the original patterns.
-/

namespace LegalBot

/-- Strings are lists of characters. -/
abbrev Str := List Char

/-- Convert a Lean string literal to the `List Char` model. -/
def str (s : String) : Str := s.toList

/-- JS `\s` test, restricted to the whitespace characters that can occur here. -/
def isWsChar (c : Char) : Bool :=
  c = ' ' || c = '\t' || c = '\n' || c = '\r' || c = '\x0b' || c = '\x0c'

/-- Case fold used to model `toLowerCase()` and the regex `i` flag on the
characters relevant to this code base (ASCII plus the accented Spanish
capitals appearing in the keywords). -/
def foldChar (c : Char) : Char :=
  if c = 'Í' then 'í' else if c = 'Ó' then 'ó' else if c = 'Ú' then 'ú'
  else if c = 'Á' then 'á' else if c = 'É' then 'é' else if c = 'Ñ' then 'ñ'
  else c.toLower

/-- Model of `s.toLowerCase()`. -/
def lowerStr (s : Str) : Str := s.map foldChar

/-- Does `s` start with `pat`? (exact characters). -/
def startsWithL : Str → Str → Bool
  | [], _ => true
  | _ :: _, [] => false
  | p :: ps, c :: cs => p = c && startsWithL ps cs

/-- JS `String.prototype.includes`: `hay.includes needle`. -/
def includesL (hay needle : Str) : Bool :=
  match hay with
  | [] => startsWithL needle []
  | _ :: t => startsWithL needle hay || includesL t needle

/-- Helper for `jsSplitWs`: `acc` is the current token (reversed), `pending`
records whether a whitespace separator run is open. -/
def swGo (acc : Str) (pending : Bool) : Str → List Str
  | [] => if pending then [acc.reverse, []] else [acc.reverse]
  | c :: t =>
    if isWsChar c then swGo acc true t
    else if pending then acc.reverse :: swGo [c] false t
    else swGo (c :: acc) false t

/-- JS `s.split(/\s+/)`: tokens between maximal whitespace runs, with an empty
token at either end when the string starts/ends with whitespace, and `[""]`
for the empty string. -/
def jsSplitWs (s : Str) : List Str := swGo [] false s

/-! ## Data model (`src/types.ts`) -/

/-- Model of `LegalMetadata`.  `title` and `chapter` are optional in the TS interface:
the primary chunker sets them (possibly to the empty string), the fallback
chunker leaves them `undefined`, modelled as `none`. -/
structure LegalMetadata where
  law : Str
  lawFullName : Str
  title : Option Str
  chapter : Option Str
  article : Str
  articleTitle : Str
  sourceFile : Str
deriving DecidableEq

/-- Model of `LegalChunk`. -/
structure LegalChunk where
  id : Str
  text : Str
  metadata : LegalMetadata
deriving DecidableEq

/-- Model of `EmbeddedChunk` (also the shape of the local store's `StoredChunk`,
whose fields are identical). -/
structure EmbeddedChunk where
  id : Str
  text : Str
  metadata : LegalMetadata
  embedding : List ℚ
deriving DecidableEq

/-- Model of `RetrievalResult`. -/
structure RetrievalResult where
  chunk : LegalChunk
  score : ℚ
deriving DecidableEq

/-! ## Reranker (`src/retrieval/reranker.ts`) -/

/-- One entry of the `LEGAL_TERM_BOOST` table. -/
structure BoostEntry where
  article : Str
  law : Str
  boost : ℚ
deriving DecidableEq

/-- The static `LEGAL_TERM_BOOST` record, as a key/value table. -/
def legalTermBoostTable : List (Str × List BoostEntry) :=
  [(str "subarrendar", [⟨str "Artículo 8", str "LAU", 15/100⟩]),
   (str "subarriendo", [⟨str "Artículo 8", str "LAU", 15/100⟩]),
   (str "subarrendamiento", [⟨str "Artículo 8", str "LAU", 15/100⟩]),
   (str "preaviso", [⟨str "Artículo 10", str "LAU", 12/100⟩]),
   (str "renovación", [⟨str "Artículo 10", str "LAU", 10/100⟩]),
   (str "prórroga", [⟨str "Artículo 10", str "LAU", 12/100⟩]),
   (str "duración", [⟨str "Artículo 9", str "LAU", 10/100⟩]),
   (str "reparaciones",
    [⟨str "Artículo 21", str "LAU", 12/100⟩, ⟨str "Artículo 22", str "LAU", 10/100⟩]),
   (str "conservación", [⟨str "Artículo 21", str "LAU", 12/100⟩]),
   (str "obras", [⟨str "Artículo 22", str "LAU", 12/100⟩]),
   (str "coeficiente", [⟨str "Artículo 5", str "LPH", 12/100⟩]),
   (str "coeficientes", [⟨str "Artículo 5", str "LPH", 12/100⟩]),
   (str "cuota", [⟨str "Artículo 5", str "LPH", 10/100⟩]),
   (str "participación", [⟨str "Artículo 5", str "LPH", 10/100⟩]),
   (str "comunidad", [⟨str "Artículo 9", str "LPH", 8/100⟩]),
   (str "gastos", [⟨str "Artículo 9", str "LPH", 8/100⟩])]

/-- Outcome of the JS property access `LEGAL_TERM_BOOST[term]`, prototype
chain included: an own key yields its entry list; an inherited key of
`Object.prototype` yields that truthy non-iterable member, over which the
subsequent `for...of` throws `TypeError`; any other key yields `undefined`,
which the falsy guard skips. -/
inductive BoostLookup where
  | own (entries : List BoostEntry)
  | inherited
  | undef
deriving DecidableEq

/-- Model of `LEGAL_TERM_BOOST[term]` with the prototype chain of the plain
object literal: since query terms are lowercased, exactly the two
all-lowercase inherited keys of `Object.prototype` — "constructor" and
"__proto__" — can be spelled by a term and reach an inherited member. -/
def legalTermBoost (t : Str) : BoostLookup :=
  match legalTermBoostTable.find? (fun kv => kv.1 == t) with
  | some kv => BoostLookup.own kv.2
  | none =>
    if t = str "constructor" ∨ t = str "__proto__" then BoostLookup.inherited
    else BoostLookup.undef

/-- The stopword set of `extractKeyTerms`. -/
def stopwords : List Str :=
  [str "el", str "la", str "los", str "las", str "un", str "una", str "unos", str "unas",
   str "de", str "del", str "al", str "a", str "en", str "con", str "por", str "para",
   str "que", str "qué", str "cual", str "cuál", str "como", str "cómo",
   str "es", str "son", str "está", str "están", str "hay",
   str "se", str "su", str "sus", str "mi", str "mis", str "tu", str "tus",
   str "y", str "o", str "pero", str "si", str "no",
   str "puedo", str "puede", str "debo", str "debe", str "necesito",
   str "cuánto", str "cuántos", str "cuánta", str "cuántas"]

/-- The punctuation class `[¿?¡!.,;:()]` replaced by a space. -/
def isQueryPunct (c : Char) : Bool :=
  c = '¿' || c = '?' || c = '¡' || c = '!' || c = '.' || c = ',' ||
  c = ';' || c = ':' || c = '(' || c = ')'

/-- Model of `extractKeyTerms`: lowercase, punctuation to spaces, split on whitespace,
keep tokens of length `> 2` that are not stopwords. -/
def extractKeyTerms (query : Str) : List Str :=
  (jsSplitWs ((lowerStr query).map (fun c => if isQueryPunct c then ' ' else c))).filter
    (fun t => 2 < t.length ∧ ¬ t ∈ stopwords)

/-- The two substring boosts of one iteration of `rerank`'s term loop:
`+0.1` for a substring match in the lowercased chunk text, `+0.15` for a
substring match in the lowercased `articleTitle`. -/
def termBase (r : RetrievalResult) (t : Str) : ℚ :=
  (if includesL (lowerStr r.chunk.text) t then (1 : ℚ)/10 else 0)
  + (if includesL (lowerStr r.chunk.metadata.articleTitle) t then (15 : ℚ)/100 else 0)

/-- Sum of the lexicon boosts of the entries whose `article` occurs in the
(unlowered) `articleTitle` and whose `law` equals the chunk's `law`. -/
def lexSum (r : RetrievalResult) (es : List BoostEntry) : ℚ :=
  es.foldl
    (fun acc e =>
      if includesL r.chunk.metadata.articleTitle e.article ∧ r.chunk.metadata.law = e.law
      then acc + e.boost else acc) 0

/-- The boost contributed by one retained query term in `rerank`'s loop, or
`none` when the term's lookup walks into an inherited `Object.prototype`
member: that value is truthy but not iterable, so the `for...of` over it
throws `TypeError` and the whole `rerank` call aborts with no result. -/
def termBoost (r : RetrievalResult) (t : Str) : Option ℚ :=
  match legalTermBoost t with
  | BoostLookup.own es => some (termBase r t + lexSum r es)
  | BoostLookup.inherited => none
  | BoostLookup.undef => some (termBase r t)

/-- The total boost accumulated for a candidate over the retained query
terms; `none` as soon as one term's lookup throws. -/
def sumBoosts (r : RetrievalResult) : List Str → Option ℚ
  | [] => some 0
  | t :: ts =>
    match termBoost r t with
    | none => none
    | some b => (sumBoosts r ts).map (fun s => b + s)

/-- The total boost for a candidate, `none` when the term loop throws. -/
def boostFor (query : Str) (r : RetrievalResult) : Option ℚ :=
  sumBoosts r (extractKeyTerms query)

/-- The per-candidate score adjustment of `rerank`,
`score := Math.min(1, score + boost)`; `none` when the term loop throws. -/
def rerankAdjust (query : Str) (r : RetrievalResult) : Option RetrievalResult :=
  (boostFor query r).map (fun b => { r with score := min 1 (r.score + b) })

/-- Stable insertion of a result into a list sorted by descending score,
modelling the stable JS `sort((a, b) => b.score - a.score)`. -/
def insertDesc (x : RetrievalResult) : List RetrievalResult → List RetrievalResult
  | [] => [x]
  | y :: ys => if y.score < x.score then x :: y :: ys else y :: insertDesc x ys

/-- Stable sort by descending score. -/
def sortDesc : List RetrievalResult → List RetrievalResult
  | [] => []
  | x :: xs => insertDesc x (sortDesc xs)

/-- The `results.map(...)` of `rerank`: the map's callback throws out of the
whole call when the term loop of some candidate does, which on a non-empty
result list happens exactly when a retained term hits an inherited key. -/
def rerankAll (query : Str) : List RetrievalResult → Option (List RetrievalResult)
  | [] => some []
  | r :: rs =>
    match rerankAdjust query r with
    | none => none
    | some r' => (rerankAll query rs).map (fun l => r' :: l)

/-- Model of `rerank`: adjust every candidate's score, then re-sort
descending; `none` when the adjustment throws (an empty result list never
runs the callback, so it succeeds for every query). -/
def rerank (results : List RetrievalResult) (query : Str) :
    Option (List RetrievalResult) :=
  (rerankAll query results).map sortDesc

/-- Model of `filterByThreshold`. -/
def filterByThreshold (results : List RetrievalResult) (threshold : ℚ) :
    List RetrievalResult :=
  results.filter (fun r => threshold ≤ r.score)

/-- The word set of a text: lowercase, JS-split on whitespace, collect. -/
def wordSet (t : Str) : Finset Str := (jsSplitWs (lowerStr t)).toFinset

/-- Model of `textSimilarity`: word-set Jaccard similarity. -/
def textSimilarity (t1 t2 : Str) : ℚ :=
  ((wordSet t1 ∩ wordSet t2).card : ℚ) / ((wordSet t1 ∪ wordSet t2).card : ℚ)

/-- The loop of `deduplicateResults`: keep `r` unless some already kept
result's text has similarity strictly above `maxOverlap` with it. -/
def dedupGo (maxOverlap : ℚ) (unique : List RetrievalResult) :
    List RetrievalResult → List RetrievalResult
  | [] => unique
  | r :: rs =>
    if unique.any (fun ex => maxOverlap < textSimilarity ex.chunk.text r.chunk.text)
    then dedupGo maxOverlap unique rs
    else dedupGo maxOverlap (unique ++ [r]) rs

/-- Model of `deduplicateResults` (default `maxOverlap = 0.8`). -/
def deduplicateResults (results : List RetrievalResult) (maxOverlap : ℚ) :
    List RetrievalResult :=
  dedupGo maxOverlap [] results

/-! ## Cosine similarity (`src/ingestion/embedder.ts`, `src/retrieval/localVectorStore.ts`) -/

/-- The error raised by the embedding gateway's `cosineSimilarity`
(`throw new Error('Vectors must have the same length')`), the spec's
`DimensionMismatch`. -/
inductive SimError where
  | dimensionMismatch
deriving DecidableEq

/-- The shared numeric body of both cosine implementations, run only on
equal-length vectors: `dot(a,b) / (sqrt(normA) * sqrt(normB))`, `0` when the
denominator is `0`. -/
def cosineBody (sqrt : ℚ → ℚ) (a b : List ℚ) : ℚ :=
  let dot := (List.zipWith (· * ·) a b).sum
  let normA := (a.map (fun x => x * x)).sum
  let normB := (b.map (fun x => x * x)).sum
  let denom := sqrt normA * sqrt normB
  if denom = 0 then 0 else dot / denom

/-- Model of `cosineSimilarity` of the embedding gateway (`embedder.ts`): throws on a
length mismatch. -/
def cosineSimilarity (sqrt : ℚ → ℚ) (a b : List ℚ) : Except SimError ℚ :=
  if a.length ≠ b.length then .error .dimensionMismatch
  else .ok (cosineBody sqrt a b)

/-- Model of `cosineSimilarity` of the local vector store (`localVectorStore.ts`):
silently returns `0` on a length mismatch. -/
def localCosineSimilarity (sqrt : ℚ → ℚ) (a b : List ℚ) : ℚ :=
  if a.length ≠ b.length then 0
  else cosineBody sqrt a b

/-! ## Local vector store (`src/retrieval/localVectorStore.ts`)

The module-level `storeData.chunks` array is made an explicit value of type
`List EmbeddedChunk`; file persistence is outside the model. -/

/-- Model of `findIndex` on the id followed by `splice(i, 1)`: remove the first stored
chunk (if any) carrying the given id. -/
def removeFirstById : List EmbeddedChunk → Str → List EmbeddedChunk
  | [], _ => []
  | c :: cs, i => if c.id = i then cs else c :: removeFirstById cs i

/-- Model of `addChunksLocal`: for each incoming chunk remove any stored chunk with the
same id, then append the incoming chunk. -/
def addChunksLocal (store : List EmbeddedChunk) : List EmbeddedChunk → List EmbeddedChunk
  | [] => store
  | c :: cs => addChunksLocal (removeFirstById store c.id ++ [c]) cs

/-- Model of `getStatsLocal().count`. -/
def getStatsLocal (store : List EmbeddedChunk) : Nat := store.length

/-- Dynamic metadata field access `chunk.metadata[key]`, `none` for an unknown
key or an `undefined` optional field. -/
def metaGet (m : LegalMetadata) (key : Str) : Option Str :=
  if key = str "law" then some m.law
  else if key = str "lawFullName" then some m.lawFullName
  else if key = str "title" then m.title
  else if key = str "chapter" then m.chapter
  else if key = str "article" then some m.article
  else if key = str "articleTitle" then some m.articleTitle
  else if key = str "sourceFile" then some m.sourceFile
  else none

/-- The metadata filter: a conjunction of exact matches; any `!==` mismatch
(including an `undefined` field or unknown key) rejects the chunk. -/
def matchesFilter (f : List (Str × Str)) (m : LegalMetadata) : Bool :=
  f.all (fun kv => metaGet m kv.1 = some kv.2)

/-- The provision part of a stored chunk, as rebuilt by `queryChunksLocal`. -/
def storedToChunk (c : EmbeddedChunk) : LegalChunk :=
  { id := c.id, text := c.text, metadata := c.metadata }

/-- Model of `queryChunksLocal`: optional filter, score every candidate with the local
cosine similarity, sort by descending score (stable), take the first `topK`. -/
def queryChunksLocal (sqrt : ℚ → ℚ) (store : List EmbeddedChunk) (queryEmbedding : List ℚ)
    (topK : Nat) (filter : Option (List (Str × Str))) : List RetrievalResult :=
  let candidates := match filter with
    | none => store
    | some f => store.filter (fun c => matchesFilter f c.metadata)
  let scored := candidates.map (fun c =>
    ({ chunk := storedToChunk c,
       score := localCosineSimilarity sqrt queryEmbedding c.embedding } : RetrievalResult))
  (sortDesc scored).take topK

/-! ## Chunker (`src/ingestion/chunker.ts`, concatenated into `embedder.ts`) -/

/-- The source descriptor `LawInfo`. -/
structure LawInfo where
  code : Str
  fullName : Str
deriving DecidableEq

/-- Model of `text.replace(/\r\n/g, '\n')`. -/
def replCrlf : Str → Str
  | [] => []
  | [c] => [c]
  | c1 :: c2 :: t =>
    if c1 = '\r' ∧ c2 = '\n' then '\n' :: replCrlf t
    else c1 :: replCrlf (c2 :: t)

/-- Model of `text.replace(/\r/g, '\n')`. -/
def replCr (s : Str) : Str := s.map (fun c => if c = '\r' then '\n' else c)

/-- Model of `text.replace(/\n{3,}/g, '\n\n')`: `n` counts the newline run currently
open; a maximal run of three or more newlines is emitted as two. -/
def squashNl (n : Nat) : Str → Str
  | [] => List.replicate (if 3 ≤ n then 2 else n) '\n'
  | c :: t =>
    if c = '\n' then squashNl (n + 1) t
    else List.replicate (if 3 ≤ n then 2 else n) '\n' ++ c :: squashNl 0 t

/-- Model of `text.replace(/[ \t]+/g, ' ')`: `inRun` records an open run of spaces and
tabs, emitted as a single space. -/
def squashSp (inRun : Bool) : Str → Str
  | [] => if inRun then [' '] else []
  | c :: t =>
    if c = ' ' ∨ c = '\t' then squashSp true t
    else if inRun then ' ' :: c :: squashSp false t
    else c :: squashSp false t

/-- Model of `trim()`: drop whitespace from both ends. -/
def trimList (s : Str) : Str :=
  (((s.dropWhile isWsChar).reverse).dropWhile isWsChar).reverse

/-- Model of `normalizeText`. -/
def normalizeText (s : Str) : Str :=
  trimList (squashSp false (squashNl 0 (replCr (replCrlf s))))

/-- Helper for `splitPars`: `acc` is the current token (reversed), `p` counts
the pending run of newlines just read.  A run of two or more newlines is a
separator; a single newline belongs to the token. -/
def spGo (acc : Str) (p : Nat) : Str → List Str
  | [] => if 2 ≤ p then [acc.reverse, []] else [(List.replicate p '\n' ++ acc).reverse]
  | c :: t =>
    if c = '\n' then spGo acc (p + 1) t
    else if 2 ≤ p then acc.reverse :: spGo [c] 0 t
    else spGo (c :: List.replicate p '\n' ++ acc) 0 t

/-- JS `text.split(/\n\n+/)`. -/
def splitPars (s : Str) : List Str := spGo [] 0 s

/-- The character for one decimal digit. -/
def digitCh (d : Nat) : Char :=
  match d with
  | 0 => '0' | 1 => '1' | 2 => '2' | 3 => '3' | 4 => '4'
  | 5 => '5' | 6 => '6' | 7 => '7' | 8 => '8' | _ => '9'

/-- Decimal rendering of a natural number, modelling JS number-to-string
interpolation for the nonnegative integers used in ids and labels. -/
def natChars (n : Nat) : Str :=
  if n = 0 then ['0']
  else ((Nat.digits 10 n).map digitCh).reverse

/-- The fallback chunk pushed by `chunkByParagraphs` for accumulated text
`cur` at index `idx`. -/
def mkFragChunk (lawInfo : LawInfo) (sourceFile : Str) (idx : Nat) (cur : Str) : LegalChunk :=
  { id := lawInfo.code ++ str "-chunk-" ++ natChars idx,
    text := trimList cur,
    metadata :=
      { law := lawInfo.code, lawFullName := lawInfo.fullName,
        title := none, chapter := none,
        article := str "Fragmento " ++ natChars (idx + 1),
        articleTitle := str "Texto legal", sourceFile := sourceFile } }

/-- The paragraph-packing loop of `chunkByParagraphs`: flush the current
chunk when adding the next paragraph would exceed 1500 characters, always
append the paragraph plus a blank line, and flush a trailing nonempty chunk. -/
def cbpGo (lawInfo : LawInfo) (sourceFile : Str) :
    List Str → Nat → Str → List LegalChunk
  | [], idx, cur =>
    if trimList cur ≠ [] then [mkFragChunk lawInfo sourceFile idx cur] else []
  | p :: ps, idx, cur =>
    if cur.length + p.length > 1500 ∧ cur ≠ [] then
      mkFragChunk lawInfo sourceFile idx cur ::
        cbpGo lawInfo sourceFile ps (idx + 1) (p ++ str "\n\n")
    else
      cbpGo lawInfo sourceFile ps idx (cur ++ p ++ str "\n\n")

/-- Model of `chunkByParagraphs` (fallback strategy). -/
def chunkByParagraphs (text : Str) (lawInfo : LawInfo) (sourceFile : Str) : List LegalChunk :=
  cbpGo lawInfo sourceFile (splitPars text) 0 []

/-- Case-folded literal match: `pat` is given lowercased; on success the rest
of the input is returned. -/
def matchFold : Str → Str → Option Str
  | [], s => some s
  | _ :: _, [] => none
  | p :: ps, c :: cs => if foldChar c = p then matchFold ps cs else none

/-- Split a maximal whitespace run off the front. -/
def wsSplit (s : Str) : Str × Str := (s.takeWhile isWsChar, s.dropWhile isWsChar)

/-- The raw capture groups of one `articleRegex` match. -/
structure ArticleParts where
  numberRaw : Str
  titleRaw : Str
  contentRaw : Str
deriving DecidableEq

/-- Does the lookahead alternative `(?:Artículo|Art\.?)\s+\d+` match at the
start of `u`? -/
def artKwAhead (u : Str) : Bool :=
  [str "artículo", str "art.", str "art"].any (fun kw =>
    match matchFold kw u with
    | none => false
    | some v =>
      let (w, v2) := wsSplit v
      ¬ w = [] && (match v2 with | [] => false | c :: _ => c.isDigit))

/-- The lookahead `(?=(?:Artículo|Art\.?)\s+\d+|TÍTULO|CAPÍTULO|$)` of
`articleRegex`. -/
def lookaheadStop (u : Str) : Bool :=
  u = [] || artKwAhead u ||
  (matchFold (str "título") u).isSome || (matchFold (str "capítulo") u).isSome

/-- The lazy group `([\s\S]*?)` followed by the lookahead: consume the
shortest prefix after which `lookaheadStop` holds, returning it and the rest. -/
def contentScan : Str → Str × Str
  | [] => ([], [])
  | c :: t =>
    if lookaheadStop (c :: t) then ([], c :: t)
    else
      let (a, r) := contentScan t
      (c :: a, r)

/-- The continuation of an `articleRegex` attempt after the capture of group
1 (`numberRaw = ds ++ wbis`): `\s*[.\-–]\s*([^\n]+)\n([\s\S]*?)` with the
lookahead.  The backtracking engine needs a newline strictly ahead of the
separator; the title group is the rest of the line from the first
non-whitespace character, or the single whitespace character before the
newline when the line is whitespace-only. -/
def afterBis (ds wbis s4 : Str) : Option (ArticleParts × Str) :=
  match s4.dropWhile isWsChar with
  | [] => none
  | sep :: s6 =>
    if sep = '.' ∨ sep = '-' ∨ sep = '–' then
      let pre := s6.takeWhile (fun c => ¬ c = '\n')
      if pre.length = s6.length then none
      else
        if hpre : pre = [] then none
        else
          let dropped := pre.dropWhile isWsChar
          some (⟨ds ++ wbis, if dropped = [] then [pre.getLast hpre] else dropped,
              (contentScan (s6.drop (pre.length + 1))).1⟩,
            (contentScan (s6.drop (pre.length + 1))).2)
    else none

/-- The deterministic continuation of an `articleRegex` attempt after the
keyword alternative has been consumed (input `s1` starts at `\s+`).  Returns
the capture groups and the rest of the input (the lookahead position). -/
def attemptAfterKw (s1 : Str) : Option (ArticleParts × Str) :=
  if s1.takeWhile isWsChar = [] then none
  else
    let s2 := s1.dropWhile isWsChar
    if s2.takeWhile Char.isDigit = [] then none
    else
      let ds := s2.takeWhile Char.isDigit
      let s3 := s2.dropWhile Char.isDigit
      -- optional `(?:\s*bis)?`; when `bis` follows the whitespace run the
      -- engine commits to it (the empty alternative could not complete the
      -- match either, since the uncommitted run then ends before a `b`)
      let sb := s3.dropWhile isWsChar
      match matchFold (str "bis") sb with
      | some rest => afterBis ds (s3.takeWhile isWsChar ++ sb.take 3) rest
      | none => afterBis ds [] s3

/-- One `articleRegex` match attempt at the current position: the alternation
`(?:Artículo|Art\.?)` is tried in source order, each alternative with the
full continuation. -/
def attemptArt (s : Str) : Option (ArticleParts × Str) :=
  match (matchFold (str "artículo") s).bind attemptAfterKw with
  | some r => some r
  | none =>
    match (matchFold (str "art.") s).bind attemptAfterKw with
    | some r => some r
    | none => (matchFold (str "art") s).bind attemptAfterKw

/-- The `exec` loop of `articleRegex` with the `g` flag: try a match at every
position from left to right, resuming after each match.  `fuel` bounds the
number of steps; every step consumes at least one character, so
`s.length + 1` is always enough. -/
def scanArts : Nat → Str → Nat → List (Nat × ArticleParts)
  | 0, _, _ => []
  | _ + 1, [], _ => []
  | fuel + 1, c :: t, pos =>
    match attemptArt (c :: t) with
    | some (parts, rest) =>
      (pos, parts) :: scanArts fuel rest (pos + ((c :: t).length - rest.length))
    | none => scanArts fuel t (pos + 1)

/-- All `articleRegex` matches of a text, with their match positions. -/
def articleMatches (s : Str) : List (Nat × ArticleParts) :=
  scanArts (s.length + 1) s 0

/-- One match attempt of a section-header regex
(`/TÍTULO\s+[IVX\d]+[.\s\-–]*([^\n]*)/gi` or the `CAPÍTULO` variant) at the
current position; returns the whole match `match[0]` and the rest. -/
def attemptSect (kw : Str) (s : Str) : Option (Str × Str) :=
  match matchFold kw s with
  | none => none
  | some s1 =>
    let (w1, s2) := wsSplit s1
    if w1 = [] then none
    else
      let rn := s2.takeWhile (fun c => foldChar c = 'i' ∨ foldChar c = 'v' ∨
        foldChar c = 'x' ∨ c.isDigit)
      if rn = [] then none
      else
        let s3 := s2.drop rn.length
        let cls := s3.takeWhile (fun c => c = '.' ∨ isWsChar c ∨ c = '-' ∨ c = '–')
        let s4 := s3.drop cls.length
        let line := s4.takeWhile (fun c => ¬ c = '\n')
        let rest := s4.drop line.length
        some (s.take kw.length ++ w1 ++ rn ++ cls ++ line, rest)

/-- The `exec` loop of a section-header regex (`extractSectionPositions`):
record `(match.index, match[0].trim())` for every match. -/
def scanSects (kw : Str) : Nat → Str → Nat → List (Nat × Str)
  | 0, _, _ => []
  | _ + 1, [], _ => []
  | fuel + 1, c :: t, pos =>
    match attemptSect kw (c :: t) with
    | some (m0, rest) =>
      (pos, trimList m0) :: scanSects kw fuel rest (pos + ((c :: t).length - rest.length))
    | none => scanSects kw fuel t (pos + 1)

/-- Model of `extractSectionPositions` for a keyword. -/
def sectionPositions (kw : Str) (s : Str) : List (Nat × Str) :=
  scanSects kw (s.length + 1) s 0

/-- Model of `findCurrentSection`: the last recorded section at or before `pos`,
stopping at the first later one (the loop's `break`). -/
def findCurrentSection (pos : Nat) (cur : Str) : List (Nat × Str) → Str
  | [] => cur
  | (p, n) :: t => if p ≤ pos then findCurrentSection pos n t else cur

/-- Model of `buildChunkText`: bracketed title/chapter context, the article header
line, a blank line, then the content, joined with newlines. -/
def buildChunkText (m : LegalMetadata) (content : Str) : Str :=
  let parts : List Str :=
    (match m.title with
     | some t => if t ≠ [] then [('[' :: t) ++ [']']] else []
     | none => []) ++
    (match m.chapter with
     | some c => if c ≠ [] then [('[' :: c) ++ [']']] else []
     | none => []) ++
    [m.article ++ str ". " ++ m.articleTitle, [], content]
  match parts with
  | [] => []
  | p :: ps => p ++ (ps.map (fun q => '\n' :: q)).flatten

/-- Lookup in the `seenIds` map. -/
def seenGet (k : Str) : List (Str × Nat) → Option Nat
  | [] => none
  | (k', v) :: t => if k' = k then some v else seenGet k t

/-- Update in the `seenIds` map. -/
def seenSet (k : Str) (v : Nat) : List (Str × Nat) → List (Str × Nat)
  | [] => [(k, v)]
  | (k', v') :: t => if k' = k then (k, v) :: t else (k', v') :: seenSet k v t

/-- The base id of an emitted provision:
`"{code}-art-{articleNumber with whitespace removed}"`. -/
def baseIdOf (lawInfo : LawInfo) (articleNumber : Str) : Str :=
  lawInfo.code ++ str "-art-" ++ articleNumber.filter (fun c => ¬ isWsChar c)

/-- The metadata attached to an emitted match, with the active title/chapter
context resolved at the match position. -/
def artMetadata (lawInfo : LawInfo) (sourceFile : Str)
    (titlePositions chapterPositions : List (Nat × Str)) (idx : Nat)
    (parts : ArticleParts) : LegalMetadata :=
  { law := lawInfo.code, lawFullName := lawInfo.fullName,
    title := some (findCurrentSection idx [] titlePositions),
    chapter := some (findCurrentSection idx [] chapterPositions),
    article := str "Artículo " ++ trimList parts.numberRaw,
    articleTitle := trimList parts.titleRaw, sourceFile := sourceFile }

/-- The chunk emitted for one accepted match, given the number of prior
occurrences `count` of its base id. -/
def artChunk (lawInfo : LawInfo) (sourceFile : Str)
    (titlePositions chapterPositions : List (Nat × Str)) (idx : Nat)
    (parts : ArticleParts) (count : Nat) : LegalChunk :=
  let metadata := artMetadata lawInfo sourceFile titlePositions chapterPositions idx parts
  let baseId := baseIdOf lawInfo (trimList parts.numberRaw)
  { id := if count = 0 then baseId else baseId ++ '-' :: natChars count,
    text := buildChunkText metadata (trimList parts.contentRaw),
    metadata := metadata }

/-- The body of the `while` loop of `chunkLegalDocument`: trim the captured
groups, skip a match with an empty number or empty content, otherwise attach
the active title/chapter context, build the chunk text, and assign the
duplicate-suffixed id. -/
def chunksFromMatches (lawInfo : LawInfo) (sourceFile : Str)
    (titlePositions chapterPositions : List (Nat × Str)) :
    List (Nat × ArticleParts) → List (Str × Nat) → List LegalChunk
  | [], _ => []
  | (idx, parts) :: ms, seen =>
    if trimList parts.numberRaw = [] ∨ trimList parts.contentRaw = [] then
      chunksFromMatches lawInfo sourceFile titlePositions chapterPositions ms seen
    else
      artChunk lawInfo sourceFile titlePositions chapterPositions idx parts
          ((seenGet (baseIdOf lawInfo (trimList parts.numberRaw)) seen).getD 0) ::
        chunksFromMatches lawInfo sourceFile titlePositions chapterPositions ms
          (seenSet (baseIdOf lawInfo (trimList parts.numberRaw))
            ((seenGet (baseIdOf lawInfo (trimList parts.numberRaw)) seen).getD 0 + 1) seen)

/-- The primary (article-marker) strategy of `chunkLegalDocument`, applied to
the already-normalized text. -/
def primaryChunks (nt : Str) (lawInfo : LawInfo) (sourceFile : Str) : List LegalChunk :=
  chunksFromMatches lawInfo sourceFile
    (sectionPositions (str "título") nt) (sectionPositions (str "capítulo") nt)
    (articleMatches nt) []

/-- Model of `chunkLegalDocument`: normalize, run the primary strategy, fall back to
paragraph packing when it matches nothing. -/
def chunkLegalDocument (text : Str) (lawInfo : LawInfo) (sourceFile : Str) : List LegalChunk :=
  let nt := normalizeText text
  let cs := primaryChunks nt lawInfo sourceFile
  if cs = [] then chunkByParagraphs nt lawInfo sourceFile else cs

/-! ## Derived notions used by the verification -/

/-- The ids of a stored chunk list. -/
def idsOf (store : List EmbeddedChunk) : List Str := store.map (fun c => c.id)

/-- Id of an occurrence of base id `b` with `k` prior collisions: no suffix
for the first occurrence, `-{k}` afterwards. -/
def encId (b : Str) (k : Nat) : Str := if k = 0 then b else b ++ '-' :: natChars k

/-- Spec-side id assignment: each base id is suffixed with the count of its
occurrences among the earlier bases. -/
def canonGo (prior : List Str) : List Str → List Str
  | [] => []
  | b :: bs => encId b (prior.count b) :: canonGo (prior ++ [b]) bs

/-- The ids the spec's ID-assignment rule produces for a base-id sequence. -/
def canonicalIds (bs : List Str) : List Str := canonGo [] bs

/-- The base ids of the matches that survive the empty-number/empty-content
guard, in match order. -/
def emittedBases (lawInfo : LawInfo) : List (Nat × ArticleParts) → List Str
  | [] => []
  | (_, p) :: ms =>
    if trimList p.numberRaw = [] ∨ trimList p.contentRaw = [] then
      emittedBases lawInfo ms
    else baseIdOf lawInfo (trimList p.numberRaw) :: emittedBases lawInfo ms

/-- Well-formed base id for one document: the document's group code, the
literal `-art-`, and a nonempty article number free of dashes. -/
def wfBase (code : Str) (b : Str) : Prop :=
  ∃ num, b = code ++ str "-art-" ++ num ∧ num ≠ [] ∧ '-' ∉ num

/-- Shape of the raw number captured by `articleRegex`'s first group: a
nonempty run of digits, optionally followed by whitespace and a
case-insensitive `bis`. -/
def NumShape (parts : ArticleParts) : Prop :=
  ∃ ds bs, parts.numberRaw = ds ++ bs ∧ ds ≠ [] ∧ (∀ c ∈ ds, c.isDigit = true) ∧
    ∀ c ∈ bs, isWsChar c = true ∨ foldChar c = 'b' ∨ foldChar c = 'i' ∨ foldChar c = 's'

/-- Length of the longest paragraph of a text (0 when none). -/
def maxParLen (text : Str) : Nat :=
  ((splitPars text).map List.length).foldr max 0

/-- Concrete candidate whose `(law, article)` pair equals the lexicon entry
for "subarrendar" while its `articleTitle` does not contain the entry's
article string. -/
def cexLabelMatch : RetrievalResult :=
  ⟨⟨str "i", str "Y", ⟨str "LAU", str "F", none, none, str "Artículo 8", str "X", str "s"⟩⟩,
    (1 : ℚ)/2⟩

/-- Concrete candidate whose `articleTitle` does contain the lexicon entry's
article string for "subarrendar". -/
def cexTitleMatch : RetrievalResult :=
  ⟨⟨str "i", str "Y",
     ⟨str "LAU", str "F", none, none, str "Artículo 8", str "Sobre el Artículo 8", str "s"⟩⟩,
    (1 : ℚ)/2⟩

/-- Concrete candidate with text "a b c d e". -/
def cexDedupA : RetrievalResult :=
  ⟨⟨str "1", str "a b c d e", ⟨str "L", str "F", none, none, str "A", str "T", str "s"⟩⟩,
    (1 : ℚ)/2⟩

/-- Concrete candidate with text "a b c d": its word-set Jaccard similarity
with `cexDedupA` is exactly 4/5. -/
def cexDedupB : RetrievalResult :=
  ⟨⟨str "2", str "a b c d", ⟨str "L", str "F", none, none, str "A", str "T", str "s"⟩⟩,
    (1 : ℚ)/2⟩

/-! ## C5: dimension mismatch behaviour of the two cosine implementations -/

/-- C5 (counterexample).  The claim asserts that every code path computing a
similarity fails with `DimensionMismatch` on unequal-length vectors,
including the local backend's search.  On the concrete mismatched pair
`[1]` / `[1, 2]` the local backend's search does not fail: it scores the
stored chunk with similarity `0` and returns it. -/
theorem localSearch_scores_mismatch_as_zero :
    queryChunksLocal (fun q => q)
      [{ id := str "i", text := str "t",
         metadata := ⟨str "L", str "F", none, none, str "A", str "T", str "s"⟩,
         embedding := [1, 2] }] [(1 : ℚ)] 5 none =
      [{ chunk := { id := str "i", text := str "t",
                    metadata := ⟨str "L", str "F", none, none, str "A", str "T", str "s"⟩ },
         score := 0 }] := by
  decide

/-- C5 (amended).  On vectors of unequal length the embedding gateway's
`cosineSimilarity` fails with `DimensionMismatch`; the local backend's
`cosineSimilarity` instead silently returns the score `0`. -/
theorem cosine_dimension_mismatch (sqrt : ℚ → ℚ) (a b : List ℚ)
    (h : a.length ≠ b.length) :
    cosineSimilarity sqrt a b = Except.error SimError.dimensionMismatch ∧
      localCosineSimilarity sqrt a b = 0 := by
  constructor
  · simp [cosineSimilarity, h]
  · simp [localCosineSimilarity, h]

/-- C5 (witness): the amended theorem applied at `[1]` and `[1, 2]`. -/
theorem cosine_dimension_mismatch_witness :
    cosineSimilarity (fun q => q) [(1 : ℚ)] [1, 2] = Except.error SimError.dimensionMismatch ∧
      localCosineSimilarity (fun q => q) [(1 : ℚ)] [1, 2] = 0 :=
  cosine_dimension_mismatch (fun q => q) [(1 : ℚ)] [1, 2] (by decide)

/-! ## C9 / C1: rerank boosts, their nonnegativity, and the inherited-key
throw of the lexicon lookup -/

theorem legalTermBoost_own_nonneg (t : Str) (es : List BoostEntry) (e : BoostEntry)
    (ht : legalTermBoost t = BoostLookup.own es) (he : e ∈ es) : 0 ≤ e.boost := by
  rw [legalTermBoost] at ht
  cases hf : legalTermBoostTable.find? (fun kv => kv.1 == t) with
  | none =>
    rw [hf] at ht
    have ht2 : (if t = str "constructor" ∨ t = str "__proto__" then BoostLookup.inherited
        else BoostLookup.undef) = BoostLookup.own es := ht
    split at ht2 <;> exact BoostLookup.noConfusion ht2
  | some kv =>
    rw [hf] at ht
    have ht2 : BoostLookup.own kv.2 = BoostLookup.own es := ht
    have hes : kv.2 = es := by injection ht2
    have hkv : kv ∈ legalTermBoostTable := List.mem_of_find?_eq_some hf
    have hall : ∀ kv ∈ legalTermBoostTable, ∀ e ∈ kv.2, 0 ≤ e.boost := by
      intro kv hkv e' he'
      fin_cases hkv <;> fin_cases he' <;> norm_num
    exact hall kv hkv e (hes ▸ he)

theorem boostFoldl_ge_acc (c : BoostEntry → Prop) [DecidablePred c] :
    ∀ (es : List BoostEntry) (acc : ℚ), (∀ e ∈ es, 0 ≤ e.boost) →
      acc ≤ es.foldl (fun a e => if c e then a + e.boost else a) acc := by
  intro es
  induction es with
  | nil => intro acc _; simp
  | cons e tl ih =>
    intro acc hall
    simp only [List.foldl_cons]
    have h0 : 0 ≤ e.boost := hall e (by simp)
    have htl : ∀ x ∈ tl, 0 ≤ x.boost := fun x hx => hall x (by simp [hx])
    by_cases hc : c e
    · calc acc ≤ acc + e.boost := by linarith
        _ ≤ _ := by rw [if_pos hc]; exact ih (acc + e.boost) htl
    · rw [if_neg hc]; exact ih acc htl

theorem boostFoldl_mem_le (c : BoostEntry → Prop) [DecidablePred c] :
    ∀ (es : List BoostEntry) (acc : ℚ) (e₀ : BoostEntry), e₀ ∈ es → c e₀ →
      (∀ e ∈ es, 0 ≤ e.boost) → 0 ≤ acc →
      e₀.boost ≤ es.foldl (fun a e => if c e then a + e.boost else a) acc := by
  intro es
  induction es with
  | nil => intro _ _ h; cases h
  | cons e tl ih =>
    intro acc e₀ hmem hc hall hacc
    have htl : ∀ x ∈ tl, 0 ≤ x.boost := fun x hx => hall x (by simp [hx])
    simp only [List.foldl_cons]
    rcases List.mem_cons.1 hmem with rfl | hmem'
    · rw [if_pos hc]
      calc e₀.boost ≤ acc + e₀.boost := by linarith
        _ ≤ _ := boostFoldl_ge_acc c tl (acc + e₀.boost) htl
    · by_cases hce : c e
      · rw [if_pos hce]
        exact ih (acc + e.boost) e₀ hmem' hc htl (by have := hall e (by simp); linarith)
      · rw [if_neg hce]; exact ih acc e₀ hmem' hc htl hacc

theorem termBase_nonneg (r : RetrievalResult) (t : Str) : 0 ≤ termBase r t := by
  rw [termBase]
  split_ifs <;> norm_num

theorem lexSum_nonneg (r : RetrievalResult) (es : List BoostEntry)
    (h : ∀ e ∈ es, 0 ≤ e.boost) : 0 ≤ lexSum r es := by
  rw [lexSum]
  exact boostFoldl_ge_acc _ es 0 h

theorem lexSum_mem_le (r : RetrievalResult) (es : List BoostEntry) (e : BoostEntry)
    (he : e ∈ es)
    (hc : includesL r.chunk.metadata.articleTitle e.article ∧ r.chunk.metadata.law = e.law)
    (h : ∀ x ∈ es, 0 ≤ x.boost) : e.boost ≤ lexSum r es := by
  rw [lexSum]
  exact boostFoldl_mem_le _ es 0 e he hc h le_rfl

theorem termBoost_some_of_ok (r : RetrievalResult) (t : Str)
    (h : ¬ legalTermBoost t = BoostLookup.inherited) :
    ∃ b, termBoost r t = some b ∧ 0 ≤ b := by
  cases hl : legalTermBoost t with
  | own es =>
    refine ⟨termBase r t + lexSum r es, by rw [termBoost, hl], ?_⟩
    have h1 := termBase_nonneg r t
    have h2 := lexSum_nonneg r es (fun e he => legalTermBoost_own_nonneg t es e hl he)
    linarith
  | inherited => exact absurd hl h
  | undef => exact ⟨termBase r t, by rw [termBoost, hl], termBase_nonneg r t⟩

theorem termBoost_some_nonneg (r : RetrievalResult) (t : Str) (b : ℚ)
    (h : termBoost r t = some b) : 0 ≤ b := by
  rw [termBoost] at h
  cases hl : legalTermBoost t with
  | own es =>
    rw [hl] at h
    have h2 : some (termBase r t + lexSum r es) = some b := h
    have hb := Option.some.inj h2
    have h1 := termBase_nonneg r t
    have h3 := lexSum_nonneg r es (fun e he => legalTermBoost_own_nonneg t es e hl he)
    linarith
  | inherited =>
    rw [hl] at h
    exact Option.noConfusion h
  | undef =>
    rw [hl] at h
    have h2 : some (termBase r t) = some b := h
    have hb := Option.some.inj h2
    have h1 := termBase_nonneg r t
    linarith

theorem sumBoosts_some_nonneg (r : RetrievalResult) :
    ∀ (ts : List Str) (s : ℚ), sumBoosts r ts = some s → 0 ≤ s := by
  intro ts
  induction ts with
  | nil =>
    intro s h
    rw [sumBoosts] at h
    have h0 : (0 : ℚ) = s := Option.some.inj h
    linarith
  | cons t ts ih =>
    intro s h
    rw [sumBoosts] at h
    cases hb : termBoost r t with
    | none =>
      rw [hb] at h
      exact Option.noConfusion h
    | some b =>
      rw [hb] at h
      have h2 : (sumBoosts r ts).map (fun s' => b + s') = some s := h
      rcases Option.map_eq_some'.1 h2 with ⟨s', hs', heq⟩
      have hb0 := termBoost_some_nonneg r t b hb
      have hs0 := ih s' hs'
      rw [← heq]
      show (0 : ℚ) ≤ b + s'
      linarith

theorem sumBoosts_total (r : RetrievalResult) :
    ∀ (ts : List Str), (∀ t ∈ ts, ¬ legalTermBoost t = BoostLookup.inherited) →
      ∃ s, sumBoosts r ts = some s ∧ 0 ≤ s := by
  intro ts
  induction ts with
  | nil => intro _; exact ⟨0, rfl, le_rfl⟩
  | cons t ts ih =>
    intro hok
    rcases termBoost_some_of_ok r t (hok t (List.mem_cons_self _ _)) with ⟨b, hb, hb0⟩
    rcases ih (fun t' ht' => hok t' (List.mem_cons_of_mem _ ht')) with ⟨s', hs', hs0⟩
    refine ⟨b + s', ?_, by linarith⟩
    rw [sumBoosts, hb, hs']
    rfl

theorem sumBoosts_mem_le (r : RetrievalResult) (t : Str) (es : List BoostEntry)
    (e : BoostEntry) (hl : legalTermBoost t = BoostLookup.own es) (he : e ∈ es)
    (hc : includesL r.chunk.metadata.articleTitle e.article ∧ r.chunk.metadata.law = e.law) :
    ∀ (ts : List Str), t ∈ ts → (∀ t' ∈ ts, ¬ legalTermBoost t' = BoostLookup.inherited) →
      ∃ s, sumBoosts r ts = some s ∧ e.boost ≤ s := by
  intro ts
  induction ts with
  | nil => intro hmem _; exact absurd hmem (List.not_mem_nil t)
  | cons t₀ ts ih =>
    intro hmem hok
    have hokts : ∀ t' ∈ ts, ¬ legalTermBoost t' = BoostLookup.inherited :=
      fun t' ht' => hok t' (List.mem_cons_of_mem _ ht')
    rcases List.mem_cons.1 hmem with rfl | hmem'
    · have hlex : e.boost ≤ lexSum r es :=
        lexSum_mem_le r es e he hc (fun x hx => legalTermBoost_own_nonneg t es x hl hx)
      have htb : termBoost r t = some (termBase r t + lexSum r es) := by
        rw [termBoost, hl]
      rcases sumBoosts_total r ts hokts with ⟨s', hs', hs0⟩
      refine ⟨termBase r t + lexSum r es + s', ?_, ?_⟩
      · rw [sumBoosts, htb, hs']
        rfl
      · have := termBase_nonneg r t
        linarith
    · rcases termBoost_some_of_ok r t₀ (hok t₀ (List.mem_cons_self _ _)) with ⟨b, hb, hb0⟩
      rcases ih hmem' hokts with ⟨s', hs', hse⟩
      refine ⟨b + s', ?_, by linarith⟩
      rw [sumBoosts, hb, hs']
      rfl

/-- C9 (counterexample).  The claim quantifies over every query, but on a
query retaining the term "constructor" the lookup `LEGAL_TERM_BOOST[term]`
walks the prototype chain to `Object.prototype.constructor` — truthy but not
iterable — and the `for...of` throws `TypeError`: `rerank` on a non-empty
candidate list produces no adjusted score at all (the empty list never runs
the map callback, so only it survives such a query). -/
theorem rerank_throws_on_inherited_key :
    str "constructor" ∈ extractKeyTerms (str "constructor") ∧
    legalTermBoost (str "constructor") = BoostLookup.inherited ∧
    rerankAdjust (str "constructor") cexLabelMatch = none ∧
    rerank [cexLabelMatch] (str "constructor") = none ∧
    rerank [] (str "constructor") = some [] := by
  refine ⟨by decide, by decide, rfl, rfl, rfl⟩

/-- C9 (amended).  For every query none of whose retained terms reaches an
inherited `Object.prototype` key (so the term loop does not throw) and every
candidate whose incoming score is at most 1, rerank's per-candidate
adjustment succeeds and the adjusted score is at least the incoming score
and at most 1. -/
theorem rerankAdjust_monotone (query : Str) (r : RetrievalResult)
    (hq : ∀ t ∈ extractKeyTerms query, ¬ legalTermBoost t = BoostLookup.inherited)
    (h : r.score ≤ 1) :
    ∃ r', rerankAdjust query r = some r' ∧ r.score ≤ r'.score ∧ r'.score ≤ 1 := by
  rcases sumBoosts_total r (extractKeyTerms query) hq with ⟨s, hs, hs0⟩
  refine ⟨{ r with score := min 1 (r.score + s) }, ?_, ?_, ?_⟩
  · rw [rerankAdjust, boostFor, hs]
    rfl
  · show r.score ≤ min 1 (r.score + s)
    exact le_min h (by linarith)
  · exact min_le_left _ _

/-- C9 (witness): the amended theorem applied at a concrete candidate with
score 1/2 and the crash-free query "subarriendo". -/
theorem rerankAdjust_monotone_witness :
    ∃ r', rerankAdjust (str "subarriendo")
        ⟨⟨str "i", str "t", ⟨str "L", str "F", none, none, str "A", str "T", str "s"⟩⟩,
          (1 : ℚ)/2⟩ = some r' ∧
      (⟨⟨str "i", str "t", ⟨str "L", str "F", none, none, str "A", str "T", str "s"⟩⟩,
          (1 : ℚ)/2⟩ : RetrievalResult).score ≤ r'.score ∧ r'.score ≤ 1 :=
  rerankAdjust_monotone (str "subarriendo") _ (by decide) (by norm_num)

/-! ## C1: the lexicon boost -/

/-- C1 (counterexample).  The query "subarrendar" retains the lexicon term
"subarrendar", whose entry is `(Artículo 8, LAU, 0.15)`, and the candidate
`cexLabelMatch` has exactly that `(law, article)` metadata pair — yet
`rerank` adds no boost at all, because the code tests the entry's article
string against the `articleTitle` heading, not the `article` label. -/
theorem lexicon_label_match_unboosted :
    str "subarrendar" ∈ extractKeyTerms (str "subarrendar") ∧
    legalTermBoost (str "subarrendar") =
      BoostLookup.own [⟨str "Artículo 8", str "LAU", 15/100⟩] ∧
    cexLabelMatch.chunk.metadata.law = str "LAU" ∧
    cexLabelMatch.chunk.metadata.article = str "Artículo 8" ∧
    boostFor (str "subarrendar") cexLabelMatch = some 0 ∧
    rerankAdjust (str "subarrendar") cexLabelMatch = some cexLabelMatch := by
  have h1 : extractKeyTerms (str "subarrendar") = [str "subarrendar"] := by decide
  have h2 : legalTermBoost (str "subarrendar") =
      BoostLookup.own [⟨str "Artículo 8", str "LAU", 15/100⟩] := rfl
  have ha : includesL (lowerStr cexLabelMatch.chunk.text) (str "subarrendar") = false := by
    decide
  have hb : includesL (lowerStr cexLabelMatch.chunk.metadata.articleTitle)
      (str "subarrendar") = false := by decide
  have hc : includesL cexLabelMatch.chunk.metadata.articleTitle (str "Artículo 8") = false := by
    decide
  have hbase : termBase cexLabelMatch (str "subarrendar") = 0 := by
    rw [termBase, ha, hb]
    norm_num
  have hlex : lexSum cexLabelMatch [⟨str "Artículo 8", str "LAU", 15/100⟩] = 0 := by
    simp [lexSum, hc]
  have htb : termBoost cexLabelMatch (str "subarrendar") = some 0 := by
    have htb1 : termBoost cexLabelMatch (str "subarrendar") =
        some (termBase cexLabelMatch (str "subarrendar") +
          lexSum cexLabelMatch [⟨str "Artículo 8", str "LAU", 15/100⟩]) := by
      rw [termBoost, h2]
    rw [htb1, hbase, hlex]
    norm_num
  have hboost : boostFor (str "subarrendar") cexLabelMatch = some 0 := by
    rw [boostFor, h1, sumBoosts, htb]
    simp [sumBoosts]
  refine ⟨by rw [h1]; exact List.mem_singleton.2 rfl, h2, rfl, rfl, hboost, ?_⟩
  rw [rerankAdjust, hboost]
  show some ({ cexLabelMatch with score := min 1 (cexLabelMatch.score + 0) }) =
    some cexLabelMatch
  have hsc : min 1 (cexLabelMatch.score + 0) = cexLabelMatch.score := by
    show min 1 ((1 : ℚ)/2 + 0) = (1 : ℚ)/2
    norm_num
  rw [hsc]

/-- C1 (amended).  If none of the query's retained terms reaches an
inherited `Object.prototype` key (so `rerank` does not throw), one retained
term has an own lexicon entry, and the candidate matches that entry the way
the code tests it — the entry's article string occurs in the candidate's
`articleTitle` heading and the laws are equal — then the adjustment succeeds
with a total boost of which the entry's configured boost is part, clamping
the score at 1. -/
theorem lexicon_boost_added (q t : Str) (es : List BoostEntry) (e : BoostEntry)
    (r : RetrievalResult)
    (hq : ∀ u ∈ extractKeyTerms q, ¬ legalTermBoost u = BoostLookup.inherited)
    (ht : t ∈ extractKeyTerms q) (hes : legalTermBoost t = BoostLookup.own es)
    (he : e ∈ es)
    (htitle : includesL r.chunk.metadata.articleTitle e.article = true)
    (hlaw : r.chunk.metadata.law = e.law) :
    ∃ b, boostFor q r = some b ∧ e.boost ≤ b ∧
      rerankAdjust q r = some { r with score := min 1 (r.score + b) } := by
  rcases sumBoosts_mem_le r t es e hes he ⟨htitle, hlaw⟩ (extractKeyTerms q) ht hq with
    ⟨s, hs, hse⟩
  refine ⟨s, by rw [boostFor]; exact hs, hse, ?_⟩
  rw [rerankAdjust, boostFor, hs]
  rfl

/-- C1 (witness): the amended theorem applied to `cexTitleMatch`, whose
heading contains "Artículo 8", with the query "subarrendar". -/
theorem lexicon_boost_added_witness :
    ∃ b, boostFor (str "subarrendar") cexTitleMatch = some b ∧
      (⟨str "Artículo 8", str "LAU", 15/100⟩ : BoostEntry).boost ≤ b ∧
      rerankAdjust (str "subarrendar") cexTitleMatch =
        some { cexTitleMatch with score := min 1 (cexTitleMatch.score + b) } :=
  lexicon_boost_added (str "subarrendar") (str "subarrendar")
    [⟨str "Artículo 8", str "LAU", 15/100⟩] ⟨str "Artículo 8", str "LAU", 15/100⟩
    cexTitleMatch (by decide) (by decide) rfl (List.mem_singleton.2 rfl) (by decide) rfl

/-! ## C3: deduplication -/

theorem dedupGo_pairwise (mo : ℚ) :
    ∀ (rs unique : List RetrievalResult),
      unique.Pairwise (fun a b => textSimilarity a.chunk.text b.chunk.text ≤ mo) →
      (dedupGo mo unique rs).Pairwise
        (fun a b => textSimilarity a.chunk.text b.chunk.text ≤ mo) := by
  intro rs
  induction rs with
  | nil => intro unique h; exact h
  | cons r rs ih =>
    intro unique h
    rw [dedupGo]
    split
    · exact ih unique h
    · rename_i hany
      apply ih
      rw [List.pairwise_append]
      refine ⟨h, List.pairwise_singleton _ _, ?_⟩
      intro a ha b hb
      rw [List.mem_singleton] at hb
      subst hb
      by_contra hgt
      exact hany (List.any_eq_true.2 ⟨a, ha, by simpa using lt_of_not_le hgt⟩)

/-- C3 (amended).  `deduplicate` keeps a candidate only when its word-set
Jaccard similarity against every already-kept candidate is at most
`max_overlap` (the code's test is strict `>`), so no two results in its
output have similarity strictly greater than `max_overlap`. -/
theorem deduplicate_pairwise (results : List RetrievalResult) (maxOverlap : ℚ) :
    (deduplicateResults results maxOverlap).Pairwise
      (fun a b => textSimilarity a.chunk.text b.chunk.text ≤ maxOverlap) :=
  dedupGo_pairwise maxOverlap results [] (List.Pairwise.nil)

/-- C3 (counterexample).  The texts "a b c d e" and "a b c d" have word-set
Jaccard similarity exactly 4/5; with `max_overlap = 4/5` the code keeps both
candidates, so the output contains two results whose similarity is ≥
`max_overlap`, contradicting the claim. -/
theorem deduplicate_keeps_similarity_at_threshold :
    textSimilarity cexDedupA.chunk.text cexDedupB.chunk.text = 4/5 ∧
      deduplicateResults [cexDedupA, cexDedupB] (4/5) = [cexDedupA, cexDedupB] := by
  have hc1 : (wordSet cexDedupA.chunk.text ∩ wordSet cexDedupB.chunk.text).card = 4 := by
    decide
  have hc2 : (wordSet cexDedupA.chunk.text ∪ wordSet cexDedupB.chunk.text).card = 5 := by
    decide
  have hsim : textSimilarity cexDedupA.chunk.text cexDedupB.chunk.text = 4/5 := by
    rw [textSimilarity, hc1, hc2]
    norm_num
  refine ⟨hsim, ?_⟩
  rw [deduplicateResults]
  norm_num [dedupGo, hsim]

/-! ## C8: the search contract of the local backend -/

theorem mem_insertDesc (z x : RetrievalResult) :
    ∀ l, z ∈ insertDesc x l ↔ z = x ∨ z ∈ l := by
  intro l
  induction l with
  | nil => simp [insertDesc]
  | cons y ys ih =>
    rw [insertDesc]
    split
    · simp
    · simp only [List.mem_cons, ih]
      tauto

theorem sorted_insertDesc (x : RetrievalResult) :
    ∀ l, l.Pairwise (fun a b => b.score ≤ a.score) →
      (insertDesc x l).Pairwise (fun a b => b.score ≤ a.score) := by
  intro l
  induction l with
  | nil => intro _; simp [insertDesc]
  | cons y ys ih =>
    intro h
    rw [List.pairwise_cons] at h
    rw [insertDesc]
    split
    · rename_i hlt
      rw [List.pairwise_cons]
      constructor
      · intro b hb
        rcases List.mem_cons.1 hb with rfl | hb'
        · exact le_of_lt hlt
        · exact le_trans (h.1 b hb') (le_of_lt hlt)
      · exact List.pairwise_cons.2 h
    · rename_i hnlt
      rw [List.pairwise_cons]
      constructor
      · intro b hb
        rcases (mem_insertDesc b x ys).1 hb with rfl | hb'
        · exact le_of_not_lt hnlt
        · exact h.1 b hb'
      · exact ih h.2

theorem sorted_sortDesc :
    ∀ l : List RetrievalResult, (sortDesc l).Pairwise (fun a b => b.score ≤ a.score) := by
  intro l
  induction l with
  | nil => simp [sortDesc]
  | cons x xs ih => exact sorted_insertDesc x (sortDesc xs) ih

theorem mem_sortDesc (z : RetrievalResult) :
    ∀ l, z ∈ sortDesc l ↔ z ∈ l := by
  intro l
  induction l with
  | nil => simp [sortDesc]
  | cons x xs ih =>
    rw [sortDesc, mem_insertDesc, ih]
    simp

/-- C8.  `search` of the local backend returns at most `top_k` results,
sorted in descending score order, and every returned result arises from a
stored chunk that passes the metadata filter (when one is given), scored
with the local cosine similarity — i.e. the filter is applied before
ranking. -/
theorem queryChunksLocal_contract (sqrt : ℚ → ℚ) (store : List EmbeddedChunk)
    (q : List ℚ) (topK : Nat) (filter : Option (List (Str × Str))) :
    (queryChunksLocal sqrt store q topK filter).length ≤ topK ∧
    (queryChunksLocal sqrt store q topK filter).Pairwise (fun a b => b.score ≤ a.score) ∧
    ∀ r ∈ queryChunksLocal sqrt store q topK filter, ∃ c ∈ store,
      (∀ f, filter = some f → matchesFilter f c.metadata = true) ∧
      r = { chunk := storedToChunk c, score := localCosineSimilarity sqrt q c.embedding } := by
  refine ⟨List.length_take_le _ _, ?_, ?_⟩
  · exact (sorted_sortDesc _).sublist (List.take_sublist _ _)
  · intro r hr
    have hr' := (mem_sortDesc r _).1 (List.mem_of_mem_take hr)
    rcases List.mem_map.1 hr' with ⟨c, hc, rfl⟩
    match hf : filter with
    | none =>
      refine ⟨c, hc, ?_, rfl⟩
      intro f hsome
      cases hsome
    | some f =>
      rcases List.mem_filter.1 hc with ⟨hcs, hmf⟩
      refine ⟨c, hcs, ?_, rfl⟩
      intro f' hsome
      cases hsome
      exact hmf

/-- C8 (witness): the contract applied to a concrete one-chunk store. -/
theorem queryChunksLocal_contract_witness :
    (queryChunksLocal (fun q => q)
        [{ id := str "i", text := str "t",
           metadata := ⟨str "L", str "F", none, none, str "A", str "T", str "s"⟩,
           embedding := [1, 2] }] [(1 : ℚ), 0] 3 (some [(str "law", str "L")])).length ≤ 3 :=
  (queryChunksLocal_contract (fun q => q) _ _ 3 _).1

/-! ## C7: idempotence of upsert on the local store -/

theorem removeFirstById_eq_filter :
    ∀ (store : List EmbeddedChunk) (i : Str), (idsOf store).Nodup →
      removeFirstById store i = store.filter (fun s => s.id ≠ i) := by
  intro store
  induction store with
  | nil => intro i _; rfl
  | cons c cs ih =>
    intro i h
    rw [idsOf, List.map_cons, List.nodup_cons] at h
    rw [removeFirstById]
    by_cases hc : c.id = i
    · rw [if_pos hc, List.filter_cons_of_neg (by simp [hc])]
      subst hc
      symm
      apply List.filter_eq_self.2
      intro s hs
      have : s.id ∈ idsOf cs := List.mem_map_of_mem _ hs
      simp only [ne_eq, decide_eq_true_eq]
      intro hsc
      exact h.1 (hsc ▸ this)
    · rw [if_neg hc, List.filter_cons_of_pos (by simp [hc]), ih i h.2]

theorem idsOf_append (a b : List EmbeddedChunk) : idsOf (a ++ b) = idsOf a ++ idsOf b :=
  List.map_append _ a b

theorem nodup_removeAdd (store : List EmbeddedChunk) (c : EmbeddedChunk)
    (h : (idsOf store).Nodup) : (idsOf (removeFirstById store c.id ++ [c])).Nodup := by
  rw [removeFirstById_eq_filter store c.id h, idsOf_append]
  apply List.Nodup.append
  · exact h.sublist ((List.filter_sublist _).map _)
  · exact List.nodup_singleton _
  · intro x hx hy
    simp only [idsOf, List.map_cons, List.map_nil, List.mem_singleton] at hy
    subst hy
    rcases List.mem_map.1 hx with ⟨s, hs, hsid⟩
    rcases List.mem_filter.1 hs with ⟨_, hne⟩
    simp only [ne_eq, decide_eq_true_eq] at hne
    exact hne hsid

theorem nodup_addChunksLocal :
    ∀ (L store : List EmbeddedChunk), (idsOf store).Nodup →
      (idsOf (addChunksLocal store L)).Nodup := by
  intro L
  induction L with
  | nil => intro store h; exact h
  | cons c cs ih =>
    intro store h
    rw [addChunksLocal]
    exact ih _ (nodup_removeAdd store c h)

theorem mem_removeFirstById :
    ∀ (store : List EmbeddedChunk) (i : Str) (s : EmbeddedChunk),
      s ∈ removeFirstById store i → s ∈ store := by
  intro store
  induction store with
  | nil => intro _ _ h; exact absurd h (List.not_mem_nil _)
  | cons c cs ih =>
    intro i s h
    rw [removeFirstById] at h
    by_cases hc : c.id = i
    · rw [if_pos hc] at h; exact List.mem_cons_of_mem _ h
    · rw [if_neg hc] at h
      rcases List.mem_cons.1 h with rfl | h'
      · exact List.mem_cons_self _ _
      · exact List.mem_cons_of_mem _ (ih i s h')

theorem mem_addChunksLocal :
    ∀ (L store : List EmbeddedChunk) (s : EmbeddedChunk),
      s ∈ addChunksLocal store L → s ∈ store ∨ s.id ∈ idsOf L := by
  intro L
  induction L with
  | nil => intro store s h; exact Or.inl h
  | cons c cs ih =>
    intro store s h
    rw [addChunksLocal] at h
    rcases ih _ s h with hmem | hid
    · rcases List.mem_append.1 hmem with hrm | hone
      · exact Or.inl (mem_removeFirstById store c.id s hrm)
      · rw [List.mem_singleton] at hone
        subst hone
        exact Or.inr (by simp [idsOf])
    · exact Or.inr (by simp [idsOf] at hid ⊢; exact Or.inr hid)

theorem addChunksLocal_characterization :
    ∀ (L store : List EmbeddedChunk), (idsOf store).Nodup →
      addChunksLocal store L =
        store.filter (fun s => s.id ∉ idsOf L) ++ addChunksLocal [] L := by
  intro L
  induction L with
  | nil =>
    intro store _
    simp [addChunksLocal, List.filter_eq_self, idsOf]
  | cons c cs ih =>
    intro store h
    rw [addChunksLocal]
    rw [ih _ (nodup_removeAdd store c h)]
    have hsingle : addChunksLocal [] (c :: cs) =
        List.filter (fun s => s.id ∉ idsOf cs) [c] ++ addChunksLocal [] cs := by
      show addChunksLocal (removeFirstById [] c.id ++ [c]) cs = _
      exact ih [c] (by simp [idsOf])
    have hff : List.filter (fun s => s.id ∉ idsOf cs)
          (List.filter (fun s => s.id ≠ c.id) store) =
        List.filter (fun s => s.id ∉ idsOf (c :: cs)) store := by
      rw [List.filter_filter]
      apply List.filter_congr
      intro s _
      rcases Decidable.em (s.id = c.id) with hsc | hsc <;>
        rcases Decidable.em (s.id ∈ idsOf cs) with hscs | hscs <;>
        simp [hsc, hscs, idsOf]
    rw [hsingle, List.filter_append, removeFirstById_eq_filter store c.id h, hff,
      List.append_assoc]

/-- C7.  On a store whose ids are unique (the documented index invariant),
calling `upsert` twice with the same chunk list leaves the store exactly as
after a single call; in particular `stats().count` and the results of any
`search` are unchanged. -/
theorem addChunksLocal_idempotent (store L : List EmbeddedChunk)
    (h : (idsOf store).Nodup) :
    addChunksLocal (addChunksLocal store L) L = addChunksLocal store L ∧
    getStatsLocal (addChunksLocal (addChunksLocal store L) L) =
      getStatsLocal (addChunksLocal store L) ∧
    ∀ (sqrt : ℚ → ℚ) (q : List ℚ) (topK : Nat) (filter : Option (List (Str × Str))),
      queryChunksLocal sqrt (addChunksLocal (addChunksLocal store L) L) q topK filter =
        queryChunksLocal sqrt (addChunksLocal store L) q topK filter := by
  have hmain : addChunksLocal (addChunksLocal store L) L = addChunksLocal store L := by
    have h1 : (idsOf (addChunksLocal store L)).Nodup := nodup_addChunksLocal L store h
    rw [addChunksLocal_characterization L _ h1]
    rw [addChunksLocal_characterization L store h]
    rw [List.filter_append]
    have hT : List.filter (fun s => s.id ∉ idsOf L) (addChunksLocal [] L) = [] := by
      rw [List.filter_eq_nil_iff]
      intro s hs
      rcases mem_addChunksLocal L [] s hs with hnil | hid
      · exact absurd hnil (List.not_mem_nil s)
      · simp [hid]
    rw [hT, List.append_nil, List.filter_filter]
    congr 1
    apply List.filter_congr
    intro s _
    rcases Decidable.em (s.id ∈ idsOf L) with hs | hs <;> simp [hs]
  exact ⟨hmain, by rw [hmain], fun sqrt q topK filter => by rw [hmain]⟩

/-- C7 (witness): idempotence applied to the empty store and a concrete
one-chunk list. -/
theorem addChunksLocal_idempotent_witness :
    addChunksLocal (addChunksLocal []
        [{ id := str "i", text := str "t",
           metadata := ⟨str "L", str "F", none, none, str "A", str "T", str "s"⟩,
           embedding := [1] }])
        [{ id := str "i", text := str "t",
           metadata := ⟨str "L", str "F", none, none, str "A", str "T", str "s"⟩,
           embedding := [1] }] =
      addChunksLocal []
        [{ id := str "i", text := str "t",
           metadata := ⟨str "L", str "F", none, none, str "A", str "T", str "s"⟩,
           embedding := [1] }] :=
  (addChunksLocal_idempotent [] _ (by simp [idsOf])).1

/-! ## C10: matches with empty trimmed content (or empty number) are skipped -/

/-- C10.  A match whose trimmed captured number or trimmed captured content
is empty contributes nothing to the emitted chunks: deleting it from the
match list leaves the output of the chunking loop unchanged (it neither
emits a Provision nor affects the id bookkeeping of later matches). -/
theorem chunksFromMatches_skips_empty (lawInfo : LawInfo) (sourceFile : Str)
    (tp cp : List (Nat × Str)) :
    ∀ (ms1 : List (Nat × ArticleParts)) (idx : Nat) (parts : ArticleParts)
      (ms2 : List (Nat × ArticleParts)) (seen : List (Str × Nat)),
      (trimList parts.numberRaw = [] ∨ trimList parts.contentRaw = []) →
      chunksFromMatches lawInfo sourceFile tp cp (ms1 ++ (idx, parts) :: ms2) seen =
        chunksFromMatches lawInfo sourceFile tp cp (ms1 ++ ms2) seen := by
  intro ms1
  induction ms1 with
  | nil =>
    intro idx parts ms2 seen hskip
    rw [List.nil_append, List.nil_append, chunksFromMatches, if_pos hskip]
  | cons m ms1 ih =>
    intro idx parts ms2 seen hskip
    rcases m with ⟨i, p⟩
    rw [List.cons_append, List.cons_append, chunksFromMatches, chunksFromMatches]
    by_cases hp : trimList p.numberRaw = [] ∨ trimList p.contentRaw = []
    · rw [if_pos hp, if_pos hp, ih idx parts ms2 seen hskip]
    · rw [if_neg hp, if_neg hp, ih idx parts ms2 _ hskip]

/-- C10 (witness): a match with whitespace-only content is dropped from a
singleton match list. -/
theorem chunksFromMatches_skips_empty_witness :
    chunksFromMatches ⟨str "LAU", str "L"⟩ (str "f") [] []
        [(0, ⟨str "1", str "T", str " "⟩)] [] =
      chunksFromMatches ⟨str "LAU", str "L"⟩ (str "f") [] [] [] [] :=
  chunksFromMatches_skips_empty ⟨str "LAU", str "L"⟩ (str "f") [] [] []
    0 ⟨str "1", str "T", str " "⟩ [] [] (by right; decide)

/-! ## C2: normalization preserves non-whitespace content -/

theorem mem_replCrlf : ∀ (s : Str) (c : Char), c ∈ s → ¬ c = '\r' → c ∈ replCrlf s
  | [], c, h, _ => absurd h (List.not_mem_nil c)
  | [d], c, h, _ => by rw [replCrlf]; exact h
  | c1 :: c2 :: t, c, h, hne => by
    rw [replCrlf]
    split
    · rename_i hcr
      rcases List.mem_cons.1 h with rfl | h1
      · exact absurd hcr.1 hne
      · rcases List.mem_cons.1 h1 with rfl | h2
        · exact hcr.2 ▸ List.mem_cons_self _ _
        · exact List.mem_cons_of_mem _ (mem_replCrlf t c h2 hne)
    · rcases List.mem_cons.1 h with rfl | h1
      · exact List.mem_cons_self _ _
      · exact List.mem_cons_of_mem _ (mem_replCrlf (c2 :: t) c h1 hne)

theorem mem_replCrlf_rev : ∀ (s : Str) (c : Char), c ∈ replCrlf s → c ∈ s ∨ c = '\n'
  | [], c, h => absurd h (List.not_mem_nil c)
  | [d], c, h => by rw [replCrlf] at h; exact Or.inl h
  | c1 :: c2 :: t, c, h => by
    rw [replCrlf] at h
    split at h
    · rcases List.mem_cons.1 h with rfl | h1
      · exact Or.inr rfl
      · rcases mem_replCrlf_rev t c h1 with h2 | h2
        · exact Or.inl (by simp [h2])
        · exact Or.inr h2
    · rcases List.mem_cons.1 h with rfl | h1
      · exact Or.inl (List.mem_cons_self _ _)
      · rcases mem_replCrlf_rev (c2 :: t) c h1 with h2 | h2
        · exact Or.inl (List.mem_cons_of_mem _ h2)
        · exact Or.inr h2

theorem mem_replCr (s : Str) (c : Char) (h : c ∈ s) (hne : ¬ c = '\r') : c ∈ replCr s := by
  rw [replCr]
  have : (if c = '\r' then '\n' else c) = c := if_neg hne
  exact this ▸ List.mem_map_of_mem _ h

theorem mem_replCr_rev (s : Str) (c : Char) (h : c ∈ replCr s) : c ∈ s ∨ c = '\n' := by
  rw [replCr] at h
  rcases List.mem_map.1 h with ⟨d, hd, hdc⟩
  by_cases hdr : d = '\r'
  · rw [if_pos hdr] at hdc; exact Or.inr hdc.symm
  · rw [if_neg hdr] at hdc; exact Or.inl (hdc ▸ hd)

theorem mem_squashNl : ∀ (s : Str) (n : Nat) (c : Char), c ∈ s → ¬ c = '\n' →
    c ∈ squashNl n s := by
  intro s
  induction s with
  | nil => intro n c h _; exact absurd h (List.not_mem_nil c)
  | cons d t ih =>
    intro n c h hne
    rw [squashNl]
    split
    · rename_i hd
      rcases List.mem_cons.1 h with rfl | h1
      · exact absurd hd hne
      · exact ih (n + 1) c h1 hne
    · apply List.mem_append_right
      rcases List.mem_cons.1 h with rfl | h1
      · exact List.mem_cons_self _ _
      · exact List.mem_cons_of_mem _ (ih 0 c h1 hne)

theorem mem_squashNl_rev : ∀ (s : Str) (n : Nat) (c : Char), c ∈ squashNl n s →
    c ∈ s ∨ c = '\n' := by
  intro s
  induction s with
  | nil =>
    intro n c h
    rw [squashNl] at h
    exact Or.inr (List.eq_of_mem_replicate h)
  | cons d t ih =>
    intro n c h
    rw [squashNl] at h
    split at h
    · rcases ih (n + 1) c h with h1 | h1
      · exact Or.inl (List.mem_cons_of_mem _ h1)
      · exact Or.inr h1
    · rcases List.mem_append.1 h with h1 | h1
      · exact Or.inr (List.eq_of_mem_replicate h1)
      · rcases List.mem_cons.1 h1 with rfl | h2
        · exact Or.inl (List.mem_cons_self _ _)
        · rcases ih 0 c h2 with h3 | h3
          · exact Or.inl (List.mem_cons_of_mem _ h3)
          · exact Or.inr h3

theorem mem_squashSp : ∀ (s : Str) (b : Bool) (c : Char), c ∈ s →
    ¬ (c = ' ' ∨ c = '\t') → c ∈ squashSp b s := by
  intro s
  induction s with
  | nil => intro b c h _; exact absurd h (List.not_mem_nil c)
  | cons d t ih =>
    intro b c h hne
    rw [squashSp]
    split
    · rename_i hd
      rcases List.mem_cons.1 h with rfl | h1
      · exact absurd hd hne
      · exact ih true c h1 hne
    · rcases List.mem_cons.1 h with rfl | h1
      · split
        · exact List.mem_cons_of_mem _ (List.mem_cons_self _ _)
        · exact List.mem_cons_self _ _
      · split
        · exact List.mem_cons_of_mem _ (List.mem_cons_of_mem _ (ih false c h1 hne))
        · exact List.mem_cons_of_mem _ (ih false c h1 hne)

theorem mem_squashSp_rev : ∀ (s : Str) (b : Bool) (c : Char), c ∈ squashSp b s →
    c ∈ s ∨ c = ' ' := by
  intro s
  induction s with
  | nil =>
    intro b c h
    rw [squashSp] at h
    split at h
    · exact Or.inr (List.mem_singleton.1 h)
    · exact absurd h (List.not_mem_nil c)
  | cons d t ih =>
    intro b c h
    rw [squashSp] at h
    split at h
    · rcases ih true c h with h1 | h1
      · exact Or.inl (List.mem_cons_of_mem _ h1)
      · exact Or.inr h1
    · split at h
      · rcases List.mem_cons.1 h with rfl | h1
        · exact Or.inr rfl
        · rcases List.mem_cons.1 h1 with rfl | h2
          · exact Or.inl (List.mem_cons_self _ _)
          · rcases ih false c h2 with h3 | h3
            · exact Or.inl (List.mem_cons_of_mem _ h3)
            · exact Or.inr h3
      · rcases List.mem_cons.1 h with rfl | h1
        · exact Or.inl (List.mem_cons_self _ _)
        · rcases ih false c h1 with h3 | h3
          · exact Or.inl (List.mem_cons_of_mem _ h3)
          · exact Or.inr h3

theorem mem_dropWhileWs : ∀ (l : Str) (c : Char), c ∈ l → isWsChar c = false →
    c ∈ l.dropWhile isWsChar := by
  intro l
  induction l with
  | nil => intro c h _; exact absurd h (List.not_mem_nil c)
  | cons d t ih =>
    intro c h hw
    rw [List.dropWhile_cons]
    split
    · rename_i hd
      rcases List.mem_cons.1 h with rfl | h1
      · rw [hd] at hw; cases hw
      · exact ih c h1 hw
    · exact h

theorem mem_trimList (l : Str) (c : Char) (h : c ∈ l) (hw : isWsChar c = false) :
    c ∈ trimList l := by
  rw [trimList, List.mem_reverse]
  apply mem_dropWhileWs
  · rw [List.mem_reverse]
    exact mem_dropWhileWs l c h hw
  · exact hw

theorem trimList_ne_nil (l : Str) (c : Char) (h : c ∈ l) (hw : isWsChar c = false) :
    trimList l ≠ [] :=
  List.ne_nil_of_mem (mem_trimList l c h hw)

theorem trimList_eq_nil (l : Str) (h : ∀ c ∈ l, isWsChar c = true) : trimList l = [] := by
  rw [trimList]
  have h1 : l.dropWhile isWsChar = [] := List.dropWhile_eq_nil_iff.2 h
  rw [h1]
  rfl

theorem normalize_keeps (l : Str) (c : Char) (h : c ∈ l) (hw : isWsChar c = false) :
    c ∈ normalizeText l := by
  have hfacts : ¬ c = ' ' ∧ ¬ c = '\t' ∧ ¬ c = '\n' ∧ ¬ c = '\r' := by
    rw [isWsChar] at hw
    simp only [Bool.or_eq_false_iff, decide_eq_false_iff_not] at hw
    exact ⟨hw.1.1.1.1.1, hw.1.1.1.1.2, hw.1.1.1.2, hw.1.1.2⟩
  rw [normalizeText]
  apply mem_trimList _ _ _ hw
  apply mem_squashSp _ _ _ _ (by tauto)
  apply mem_squashNl _ _ _ _ hfacts.2.2.1
  apply mem_replCr _ _ _ hfacts.2.2.2
  exact mem_replCrlf l c h hfacts.2.2.2

theorem normalize_allws (l : Str) (h : ∀ c ∈ l, isWsChar c = true) :
    normalizeText l = [] := by
  rw [normalizeText]
  apply trimList_eq_nil
  intro c hc
  rcases mem_squashSp_rev _ _ _ hc with h1 | h1
  · rcases mem_squashNl_rev _ _ _ h1 with h2 | h2
    · rcases mem_replCr_rev _ _ h2 with h3 | h3
      · rcases mem_replCrlf_rev _ _ h3 with h4 | h4
        · exact h c h4
        · subst h4; rfl
      · subst h3; rfl
    · subst h2; rfl
  · subst h1; rfl

theorem spGo_token : ∀ (l acc : Str) (p : Nat) (c : Char),
    (c ∈ l ∨ c ∈ acc) → ¬ c = '\n' → ∃ tok ∈ spGo acc p l, c ∈ tok := by
  intro l
  induction l with
  | nil =>
    intro acc p c h hne
    have hacc : c ∈ acc := by
      rcases h with h | h
      · exact absurd h (List.not_mem_nil c)
      · exact h
    rw [spGo]
    split
    · exact ⟨acc.reverse, List.mem_cons_self _ _, List.mem_reverse.2 hacc⟩
    · exact ⟨_, List.mem_cons_self _ _,
        List.mem_reverse.2 (List.mem_append_right _ hacc)⟩
  | cons d t ih =>
    intro acc p c h hne
    rw [spGo]
    split
    · rename_i hd
      apply ih acc (p + 1) c _ hne
      rcases h with h1 | h1
      · rcases List.mem_cons.1 h1 with rfl | h2
        · exact absurd hd hne
        · exact Or.inl h2
      · exact Or.inr h1
    · split
      · rcases h with h1 | h1
        · rcases List.mem_cons.1 h1 with rfl | h2
          · rcases ih [c] 0 c (Or.inr (List.mem_singleton.2 rfl)) hne with ⟨tok, htok, hc⟩
            exact ⟨tok, List.mem_cons_of_mem _ htok, hc⟩
          · rcases ih [d] 0 c (Or.inl h2) hne with ⟨tok, htok, hc⟩
            exact ⟨tok, List.mem_cons_of_mem _ htok, hc⟩
        · exact ⟨acc.reverse, List.mem_cons_self _ _, List.mem_reverse.2 h1⟩
      · apply ih _ 0 c _ hne
        rcases h with h1 | h1
        · rcases List.mem_cons.1 h1 with rfl | h2
          · exact Or.inr (List.mem_cons_self _ _)
          · exact Or.inl h2
        · exact Or.inr (List.mem_cons_of_mem _ (List.mem_append_right _ h1))

theorem cbpGo_ne_nil (lawInfo : LawInfo) (sourceFile : Str) :
    ∀ (ps : List Str) (idx : Nat) (cur : Str),
      (∃ c, isWsChar c = false ∧ (c ∈ cur ∨ ∃ p ∈ ps, c ∈ p)) →
      cbpGo lawInfo sourceFile ps idx cur ≠ [] := by
  intro ps
  induction ps with
  | nil =>
    intro idx cur ⟨c, hw, hc⟩
    have hcur : c ∈ cur := by
      rcases hc with h | ⟨p, hp, _⟩
      · exact h
      · exact absurd hp (List.not_mem_nil p)
    rw [cbpGo, if_pos (trimList_ne_nil cur c hcur hw)]
    exact List.cons_ne_nil _ _
  | cons p ps ih =>
    intro idx cur ⟨c, hw, hc⟩
    rw [cbpGo]
    split
    · exact List.cons_ne_nil _ _
    · apply ih (idx) (cur ++ p ++ str "\n\n")
      refine ⟨c, hw, ?_⟩
      rcases hc with h1 | ⟨p', hp', hcp'⟩
      · exact Or.inl (List.mem_append_left _ (List.mem_append_left _ h1))
      · rcases List.mem_cons.1 hp' with rfl | h2
        · exact Or.inl (List.mem_append_left _ (List.mem_append_right _ hcp'))
        · exact Or.inr ⟨p', h2, hcp'⟩

/-- C2 (amended).  `chunkLegalDocument` returns a non-empty chunk list for
every input containing at least one non-whitespace character; for
whitespace-only input (including the empty string) it returns the empty
list. -/
theorem chunkLegalDocument_nonempty (text : Str) (lawInfo : LawInfo) (sourceFile : Str) :
    ((∃ c ∈ text, isWsChar c = false) → chunkLegalDocument text lawInfo sourceFile ≠ []) ∧
    ((∀ c ∈ text, isWsChar c = true) → chunkLegalDocument text lawInfo sourceFile = []) := by
  constructor
  · rintro ⟨c, hc, hw⟩
    have hcnt : c ∈ normalizeText text := normalize_keeps text c hc hw
    rw [chunkLegalDocument]
    split
    · apply cbpGo_ne_nil
      refine ⟨c, hw, Or.inr ?_⟩
      exact spGo_token (normalizeText text) [] 0 c (Or.inl hcnt)
        (by rintro rfl; cases hw)
    · rename_i hcs
      exact hcs
  · intro h
    have hnt : normalizeText text = [] := normalize_allws text h
    rw [chunkLegalDocument, hnt]
    rfl

/-- C2 (counterexample).  The single-space input is non-empty, yet
`chunkLegalDocument` returns the empty list: normalization trims the text to
nothing, the primary strategy matches nothing, and the fallback emits no
chunk because the accumulated text trims to empty. -/
theorem whitespace_input_yields_no_chunks :
    str " " ≠ [] ∧
      chunkLegalDocument (str " ") ⟨str "LAU", str "L"⟩ (str "f") = [] := by
  constructor
  · decide
  · rfl

/-- C2 (witness): the amended theorem applied to the one-letter input "a". -/
theorem chunkLegalDocument_nonempty_witness :
    chunkLegalDocument (str "a") ⟨str "LAU", str "L"⟩ (str "f") ≠ [] :=
  (chunkLegalDocument_nonempty (str "a") ⟨str "LAU", str "L"⟩ (str "f")).1
    ⟨'a', by decide, by decide⟩

/-! ## C4: the character budget of the fallback strategy -/

theorem le_foldr_max : ∀ (l : List Nat) (x : Nat), x ∈ l → x ≤ l.foldr max 0 := by
  intro l
  induction l with
  | nil => intro x h; exact absurd h (List.not_mem_nil x)
  | cons a t ih =>
    intro x h
    rw [List.foldr_cons]
    rcases List.mem_cons.1 h with rfl | h1
    · exact le_max_left _ _
    · exact le_trans (ih x h1) (le_max_right _ _)

theorem trimList_append_nlnl_length :
    ∀ (u : Str), (trimList (u ++ str "\n\n")).length ≤ u.length := by
  intro u
  induction u with
  | nil => decide
  | cons a u ih =>
    by_cases ha : isWsChar a = true
    · have : trimList ((a :: u) ++ str "\n\n") = trimList (u ++ str "\n\n") := by
        rw [trimList, trimList, List.cons_append, List.dropWhile_cons, if_pos ha]
      rw [this]
      exact le_trans ih (Nat.le_succ_of_le le_rfl)
    · rw [trimList, List.cons_append, List.dropWhile_cons, if_neg ha]
      have hrev : (a :: (u ++ str "\n\n")).reverse =
          '\n' :: '\n' :: (u.reverse ++ [a]) := by
        show (a :: (u ++ ['\n', '\n'])).reverse = '\n' :: '\n' :: (u.reverse ++ [a])
        rw [List.reverse_cons, List.reverse_append]
        rfl
      rw [hrev]
      have hdw : List.dropWhile isWsChar ('\n' :: '\n' :: (u.reverse ++ [a])) =
          List.dropWhile isWsChar (u.reverse ++ [a]) := by
        rw [List.dropWhile_cons, if_pos (by rfl), List.dropWhile_cons, if_pos (by rfl)]
      rw [hdw, List.length_reverse]
      calc (List.dropWhile isWsChar (u.reverse ++ [a])).length
          ≤ (u.reverse ++ [a]).length := (List.dropWhile_sublist _).length_le
        _ = u.length + 1 := by rw [List.length_append, List.length_reverse]; rfl

theorem cbpGo_budget (lawInfo : LawInfo) (sourceFile : Str) (B : Nat) (hB : 1500 ≤ B) :
    ∀ (ps : List Str) (idx : Nat) (cur : Str),
      (∀ p ∈ ps, p.length ≤ B) →
      (cur = [] ∨ (cur.length ≤ B + 2 ∧ ∃ u, cur = u ++ str "\n\n")) →
      ∀ ch ∈ cbpGo lawInfo sourceFile ps idx cur, ch.text.length ≤ B := by
  have hflush : ∀ (cur : Str), cur.length ≤ B + 2 → (∃ u, cur = u ++ str "\n\n") →
      (trimList cur).length ≤ B := by
    rintro cur hlen ⟨u, rfl⟩
    have hu : u.length + 2 ≤ B + 2 := by
      have : (u ++ str "\n\n").length = u.length + 2 := by
        rw [List.length_append]; rfl
      rw [this] at hlen
      exact hlen
    exact le_trans (trimList_append_nlnl_length u) (by exact Nat.le_of_add_le_add_right hu)
  intro ps
  induction ps with
  | nil =>
    intro idx cur _ hinv ch hch
    rw [cbpGo] at hch
    split at hch
    · rename_i hne
      rw [List.mem_singleton] at hch
      subst hch
      rcases hinv with rfl | ⟨hlen, hend⟩
      · exact absurd rfl hne
      · exact hflush cur hlen hend
    · exact absurd hch (List.not_mem_nil ch)
  | cons p ps ih =>
    intro idx cur hp hinv ch hch
    have hptail : ∀ q ∈ ps, q.length ≤ B := fun q hq => hp q (List.mem_cons_of_mem _ hq)
    have hphead : p.length ≤ B := hp p (List.mem_cons_self _ _)
    rw [cbpGo] at hch
    split at hch
    · rename_i hcond
      rcases List.mem_cons.1 hch with rfl | hch'
      · rcases hinv with rfl | ⟨hlen, hend⟩
        · exact absurd rfl hcond.2
        · exact hflush cur hlen hend
      · refine ih (idx + 1) (p ++ str "\n\n") hptail (Or.inr ⟨?_, p, rfl⟩) ch hch'
        rw [List.length_append, show (str "\n\n").length = 2 from rfl]
        omega
    · rename_i hcond
      refine ih idx (cur ++ p ++ str "\n\n") hptail (Or.inr ⟨?_, cur ++ p, rfl⟩) ch hch
      rw [List.length_append, List.length_append, show (str "\n\n").length = 2 from rfl]
      have hcur : ¬ (cur.length + p.length > 1500 ∧ cur ≠ []) := hcond
      rcases Decidable.em (cur = []) with rfl | hne
      · have : (([] : Str)).length = 0 := rfl
        omega
      · have hsum : cur.length + p.length ≤ 1500 := by
          by_contra hgt
          exact hcur ⟨Nat.lt_of_not_le (fun hle => hgt (by omega)), hne⟩
        omega

/-- C4 (amended).  Every Provision emitted by the fallback paragraph-packing
strategy has body text of length at most `max 1500 L`, where `L` is the
length of the longest single paragraph of the input: the 1500-character
budget is guaranteed only when no individual paragraph exceeds it. -/
theorem chunkByParagraphs_budget (text : Str) (lawInfo : LawInfo) (sourceFile : Str)
    (ch : LegalChunk) (hch : ch ∈ chunkByParagraphs text lawInfo sourceFile) :
    ch.text.length ≤ max 1500 (maxParLen text) := by
  apply cbpGo_budget lawInfo sourceFile (max 1500 (maxParLen text)) (le_max_left _ _)
    (splitPars text) 0 [] _ (Or.inl rfl) ch hch
  intro p hp
  refine le_trans ?_ (le_max_right 1500 _)
  exact le_foldr_max _ _ (List.mem_map_of_mem List.length hp)

/-- C4 (witness): the budget theorem applied to the concrete input "a",
whose single fallback chunk is the trimmed accumulation of that paragraph. -/
theorem chunkByParagraphs_budget_witness :
    (mkFragChunk ⟨str "LAU", str "L"⟩ (str "f") 0 (([] ++ str "a") ++ str "\n\n")).text.length ≤
      max 1500 (maxParLen (str "a")) := by
  apply chunkByParagraphs_budget (str "a") ⟨str "LAU", str "L"⟩ (str "f")
  rw [show chunkByParagraphs (str "a") ⟨str "LAU", str "L"⟩ (str "f") =
    [mkFragChunk ⟨str "LAU", str "L"⟩ (str "f") 0 (([] ++ str "a") ++ str "\n\n")] from rfl]
  exact List.mem_singleton.2 rfl

set_option maxRecDepth 40000 in
/-- C4 (counterexample).  On an input consisting of 1501 letters `a` the
primary strategy matches zero provisions, and the fallback emits a single
Provision whose body has length 1501, exceeding the fixed 1500-character
budget claimed. -/
theorem fallback_chunk_exceeds_budget :
    primaryChunks (normalizeText (List.replicate 1501 'a')) ⟨str "LAU", str "L"⟩ (str "f") = [] ∧
    (chunkLegalDocument (List.replicate 1501 'a') ⟨str "LAU", str "L"⟩ (str "f")).map
        (fun ch => ch.text.length) = [1501] := by
  constructor
  · decide
  · decide

/-! ## C6: uniqueness and suffixing of primary-strategy ids -/

theorem artChunk_id (lawInfo : LawInfo) (sourceFile : Str) (tp cp : List (Nat × Str))
    (idx : Nat) (parts : ArticleParts) (count : Nat) :
    (artChunk lawInfo sourceFile tp cp idx parts count).id =
      encId (baseIdOf lawInfo (trimList parts.numberRaw)) count := rfl

theorem seenGet_seenSet (k k' : Str) (v : Nat) :
    ∀ l, seenGet k' (seenSet k v l) = if k' = k then some v else seenGet k' l := by
  intro l
  induction l with
  | nil =>
    by_cases h : k' = k
    · subst h; simp [seenSet, seenGet]
    · have h' : ¬ k = k' := fun hh => h hh.symm
      simp [seenSet, seenGet, h, h']
  | cons kv t ih =>
    rcases kv with ⟨k0, v0⟩
    rw [seenSet]
    by_cases h0 : k0 = k
    · subst h0
      rw [if_pos rfl]
      by_cases h : k' = k0
      · subst h; simp [seenGet]
      · have h' : ¬ k0 = k' := fun hh => h hh.symm
        simp [seenGet, h, h']
    · rw [if_neg h0]
      by_cases h1 : k0 = k'
      · have hk : ¬ k' = k := fun hh => h0 (h1.trans hh)
        simp [seenGet, h1, hk]
      · simp [seenGet, h1, ih]

theorem chunksFromMatches_ids (lawInfo : LawInfo) (sourceFile : Str)
    (tp cp : List (Nat × Str)) :
    ∀ (ms : List (Nat × ArticleParts)) (seen : List (Str × Nat)) (prior : List Str),
      (∀ b : Str, (seenGet b seen).getD 0 = prior.count b) →
      (chunksFromMatches lawInfo sourceFile tp cp ms seen).map (fun c => c.id) =
        canonGo prior (emittedBases lawInfo ms) := by
  intro ms
  induction ms with
  | nil => intro seen prior _; rfl
  | cons m ms ih =>
    intro seen prior hinv
    rcases m with ⟨idx, parts⟩
    rw [chunksFromMatches, emittedBases]
    by_cases hskip : trimList parts.numberRaw = [] ∨ trimList parts.contentRaw = []
    · rw [if_pos hskip, if_pos hskip]
      exact ih seen prior hinv
    · rw [if_neg hskip, if_neg hskip, List.map_cons, canonGo, artChunk_id, hinv]
      congr 1
      apply ih
      intro b
      rw [seenGet_seenSet]
      by_cases hb : b = baseIdOf lawInfo (trimList parts.numberRaw)
      · rw [if_pos hb]
        subst hb
        simp [List.count_append]
      · rw [if_neg hb, hinv, List.count_append]
        have h0 : List.count b [baseIdOf lawInfo (trimList parts.numberRaw)] = 0 := by
          simp [hb]
        omega

theorem split_at_dash :
    ∀ (a : Str) (u : Str) (b : Str) (v : Str), '-' ∉ a → '-' ∉ b →
      a ++ '-' :: u = b ++ '-' :: v → a = b ∧ u = v := by
  intro a
  induction a with
  | nil =>
    intro u b v _ hb h
    match b with
    | [] =>
      rw [List.nil_append, List.nil_append] at h
      exact ⟨rfl, (List.cons.injEq _ _ _ _ ▸ h).2⟩
    | x :: b' =>
      rw [List.nil_append, List.cons_append] at h
      have hx : x = '-' := ((List.cons.injEq _ _ _ _ ▸ h).1).symm
      exact absurd (hx ▸ List.mem_cons_self x b') hb
  | cons y a' ih =>
    intro u b v ha hb h
    match b with
    | [] =>
      rw [List.nil_append, List.cons_append] at h
      have hy : y = '-' := (List.cons.injEq _ _ _ _ ▸ h).1
      exact absurd (hy ▸ List.mem_cons_self y a') ha
    | x :: b' =>
      rw [List.cons_append, List.cons_append] at h
      have h1 := List.cons.injEq _ _ _ _ ▸ h
      have ha' : '-' ∉ a' := fun hm => ha (List.mem_cons_of_mem _ hm)
      have hb' : '-' ∉ b' := fun hm => hb (List.mem_cons_of_mem _ hm)
      rcases ih u b' v ha' hb' h1.2 with ⟨hab, huv⟩
      exact ⟨by rw [h1.1, hab], huv⟩

theorem digitCh_inj (a b : Nat) (ha : a < 10) (hb : b < 10) (h : digitCh a = digitCh b) :
    a = b := by
  interval_cases a <;> interval_cases b <;> simp_all [digitCh]

theorem dash_not_mem_digitCh : ∀ (d : Nat), ¬ digitCh d = '-'
  | 0 => by decide
  | 1 => by decide
  | 2 => by decide
  | 3 => by decide
  | 4 => by decide
  | 5 => by decide
  | 6 => by decide
  | 7 => by decide
  | 8 => by decide
  | n + 9 => by show ¬ '9' = '-'; decide

theorem dash_not_mem_natChars (n : Nat) : '-' ∉ natChars n := by
  rw [natChars]
  split
  · decide
  · intro hm
    rw [List.mem_reverse] at hm
    rcases List.mem_map.1 hm with ⟨d, _, hd⟩
    exact dash_not_mem_digitCh d hd

theorem map_digitCh_inj :
    ∀ (l1 l2 : List Nat), (∀ x ∈ l1, x < 10) → (∀ x ∈ l2, x < 10) →
      l1.map digitCh = l2.map digitCh → l1 = l2 := by
  intro l1
  induction l1 with
  | nil =>
    intro l2 _ _ h
    match l2 with
    | [] => rfl
    | x :: t => exact absurd h (by simp)
  | cons a t1 ih =>
    intro l2 h1 h2 h
    match l2 with
    | [] => exact absurd h (by simp)
    | b :: t2 =>
      rw [List.map_cons, List.map_cons] at h
      have hh := List.cons.injEq _ _ _ _ ▸ h
      have hab : a = b := digitCh_inj a b (h1 a (List.mem_cons_self _ _))
        (h2 b (List.mem_cons_self _ _)) hh.1
      have ht : t1 = t2 := ih t2 (fun x hx => h1 x (List.mem_cons_of_mem _ hx))
        (fun x hx => h2 x (List.mem_cons_of_mem _ hx)) hh.2
      rw [hab, ht]

theorem natChars_inj (m n : Nat) (h : natChars m = natChars n) : m = n := by
  rw [natChars, natChars] at h
  by_cases hm : m = 0 <;> by_cases hn : n = 0
  · rw [hm, hn]
  · rw [if_pos hm, if_neg hn] at h
    exfalso
    have hd : Nat.digits 10 n = [0] := by
      have := congrArg List.reverse h
      rw [List.reverse_reverse] at this
      have h1 : (Nat.digits 10 n).map digitCh = [0].map digitCh := by
        rw [← this]; rfl
      exact map_digitCh_inj _ _
        (fun x hx => Nat.digits_lt_base (by norm_num) hx)
        (by intro x hx; rw [List.mem_singleton] at hx; omega) h1
    have h2 := congrArg (Nat.ofDigits 10) hd
    rw [Nat.ofDigits_digits] at h2
    simp [Nat.ofDigits] at h2
    exact hn h2
  · rw [if_neg hm, if_pos hn] at h
    exfalso
    have hd : Nat.digits 10 m = [0] := by
      have := congrArg List.reverse h
      rw [List.reverse_reverse] at this
      have h1 : (Nat.digits 10 m).map digitCh = [0].map digitCh := by
        rw [this]; rfl
      exact map_digitCh_inj _ _
        (fun x hx => Nat.digits_lt_base (by norm_num) hx)
        (by intro x hx; rw [List.mem_singleton] at hx; omega) h1
    have h2 := congrArg (Nat.ofDigits 10) hd
    rw [Nat.ofDigits_digits] at h2
    simp [Nat.ofDigits] at h2
    exact hm h2
  · rw [if_neg hm, if_neg hn] at h
    have h1 := congrArg List.reverse h
    rw [List.reverse_reverse, List.reverse_reverse] at h1
    have h2 := map_digitCh_inj _ _
      (fun x hx => Nat.digits_lt_base (by norm_num) hx)
      (fun x hx => Nat.digits_lt_base (by norm_num) hx) h1
    have := congrArg (Nat.ofDigits 10) h2
    rwa [Nat.ofDigits_digits, Nat.ofDigits_digits] at this

theorem encId_inj (code b1 b2 : Str) (k1 k2 : Nat)
    (h1 : wfBase code b1) (h2 : wfBase code b2) (h : encId b1 k1 = encId b2 k2) :
    b1 = b2 ∧ k1 = k2 := by
  rcases h1 with ⟨n1, rfl, hn1, hd1⟩
  rcases h2 with ⟨n2, rfl, hn2, hd2⟩
  rw [encId, encId] at h
  by_cases hk1 : k1 = 0 <;> by_cases hk2 : k2 = 0
  · rw [if_pos hk1, if_pos hk2] at h
    exact ⟨h, hk1.trans hk2.symm⟩
  · rw [if_pos hk1, if_neg hk2] at h
    exfalso
    rw [List.append_assoc, List.append_assoc, List.append_assoc] at h
    have h4 := List.append_cancel_left (List.append_cancel_left h)
    have : '-' ∈ n1 := by
      rw [h4]
      exact List.mem_append_right _ (List.mem_cons_self _ _)
    exact hd1 this
  · rw [if_neg hk1, if_pos hk2] at h
    exfalso
    rw [List.append_assoc, List.append_assoc, List.append_assoc] at h
    have h4 := List.append_cancel_left (List.append_cancel_left h)
    have : '-' ∈ n2 := by
      rw [← h4]
      exact List.mem_append_right _ (List.mem_cons_self _ _)
    exact hd2 this
  · rw [if_neg hk1, if_neg hk2] at h
    rw [List.append_assoc, List.append_assoc, List.append_assoc, List.append_assoc] at h
    have h4 := List.append_cancel_left (List.append_cancel_left h)
    rcases split_at_dash n1 (natChars k1) n2 (natChars k2) hd1 hd2 h4 with ⟨hn, hk⟩
    exact ⟨by rw [hn], natChars_inj k1 k2 hk⟩

theorem mem_canonGo :
    ∀ (bs prior : List Str) (x : Str), x ∈ canonGo prior bs →
      ∃ j, ∃ hj : j < bs.length,
        x = encId (bs.get ⟨j, hj⟩) ((prior ++ bs.take j).count (bs.get ⟨j, hj⟩)) := by
  intro bs
  induction bs with
  | nil => intro prior x h; exact absurd h (List.not_mem_nil x)
  | cons b bs ih =>
    intro prior x h
    rw [canonGo] at h
    rcases List.mem_cons.1 h with rfl | h1
    · refine ⟨0, Nat.succ_pos _, ?_⟩
      simp
    · rcases ih (prior ++ [b]) x h1 with ⟨j, hj, hx⟩
      refine ⟨j + 1, Nat.succ_lt_succ hj, ?_⟩
      rw [hx]
      have hget : (b :: bs).get ⟨j + 1, Nat.succ_lt_succ hj⟩ = bs.get ⟨j, hj⟩ := rfl
      have htake : (b :: bs).take (j + 1) = b :: bs.take j := rfl
      rw [hget, htake]
      have happ : prior ++ [b] ++ bs.take j = prior ++ (b :: bs.take j) := by
        rw [List.append_assoc]
        rfl
      rw [happ]

theorem canonGo_nodup (code : Str) :
    ∀ (bs prior : List Str), (∀ b ∈ bs, wfBase code b) → (canonGo prior bs).Nodup := by
  intro bs
  induction bs with
  | nil => intro prior _; exact List.Pairwise.nil
  | cons b bs ih =>
    intro prior hwf
    rw [canonGo, List.nodup_cons]
    constructor
    · intro hmem
      rcases mem_canonGo bs (prior ++ [b]) _ hmem with ⟨j, hj, hx⟩
      have hwfj : wfBase code (bs.get ⟨j, hj⟩) :=
        hwf _ (List.mem_cons_of_mem _ (bs.get_mem _ _))
      rcases encId_inj code b (bs.get ⟨j, hj⟩) _ _
        (hwf b (List.mem_cons_self _ _)) hwfj hx with ⟨hb, hk⟩
      rw [← hb] at hk
      rw [List.append_assoc, List.count_append] at hk
      have : 0 < List.count b ([b] ++ bs.take j) := by
        rw [List.count_append]
        simp
      omega
    · exact ih (prior ++ [b]) (fun q hq => hwf q (List.mem_cons_of_mem _ hq))

theorem digit_not_ws (c : Char) (h : c.isDigit = true) : isWsChar c = false := by
  by_contra hw
  rw [Bool.not_eq_false, isWsChar] at hw
  simp only [Bool.or_eq_true, decide_eq_true_eq] at hw
  rcases hw with ((((h1 | h1) | h1) | h1) | h1) | h1 <;>
    subst h1 <;> exact absurd h (by decide)

theorem mem_of_mem_trimList (l : Str) (c : Char) (h : c ∈ trimList l) : c ∈ l := by
  rw [trimList] at h
  rw [List.mem_reverse] at h
  have h1 := (List.dropWhile_sublist _).subset h
  rw [List.mem_reverse] at h1
  exact (List.dropWhile_sublist _).subset h1

theorem mem_takeWhile_pred : ∀ (l : Str) (p : Char → Bool) (c : Char),
    c ∈ l.takeWhile p → p c = true := by
  intro l
  induction l with
  | nil => intro p c h; rw [List.takeWhile_nil] at h; exact absurd h (List.not_mem_nil c)
  | cons d t ih =>
    intro p c h
    rw [List.takeWhile_cons] at h
    split at h
    · rcases List.mem_cons.1 h with rfl | h1
      · assumption
      · exact ih p c h1
    · exact absurd h (List.not_mem_nil c)

theorem matchFold_bis : ∀ (sb r : Str), matchFold ['b', 'i', 's'] sb = some r →
    ∃ c1 c2 c3, sb = c1 :: c2 :: c3 :: r ∧
      foldChar c1 = 'b' ∧ foldChar c2 = 'i' ∧ foldChar c3 = 's' := by
  intro sb r h
  match sb with
  | [] => exact Option.noConfusion h
  | c1 :: s1 =>
    rw [matchFold] at h
    split at h
    · match s1 with
      | [] => exact Option.noConfusion h
      | c2 :: s2 =>
        rw [matchFold] at h
        split at h
        · match s2 with
          | [] => exact Option.noConfusion h
          | c3 :: s3 =>
            rw [matchFold] at h
            split at h
            · rw [matchFold] at h
              have hr := Option.some.inj h
              rename_i h1 h2 h3
              exact ⟨c1, c2, c3, by rw [hr], h1, h2, h3⟩
            · exact Option.noConfusion h
        · exact Option.noConfusion h
    · exact Option.noConfusion h

theorem afterBis_number (ds wbis s4 : Str) (parts : ArticleParts) (rest : Str)
    (h : afterBis ds wbis s4 = some (parts, rest)) : parts.numberRaw = ds ++ wbis := by
  simp only [afterBis] at h
  split at h
  · exact Option.noConfusion h
  · split at h
    · split at h
      · exact Option.noConfusion h
      · split at h
        · exact Option.noConfusion h
        · have h1 := Option.some.inj h
          have h2 := congrArg (fun pr : ArticleParts × Str => pr.1.numberRaw) h1
          simpa using h2.symm
    · exact Option.noConfusion h

theorem attemptAfterKw_number (s1 : Str) (parts : ArticleParts) (rest : Str)
    (h : attemptAfterKw s1 = some (parts, rest)) : NumShape parts := by
  simp only [attemptAfterKw] at h
  split at h
  · exact Option.noConfusion h
  · split at h
    · exact Option.noConfusion h
    · rename_i hds
      split at h
      · rename_i rest' hbis
        have hnum := afterBis_number _ _ _ _ _ h
        rcases matchFold_bis _ _ hbis with ⟨c1, c2, c3, hsb, hb1, hb2, hb3⟩
        refine ⟨_, _, hnum, hds, ?_, ?_⟩
        · intro c hc
          exact mem_takeWhile_pred _ _ _ hc
        · intro c hc
          rcases List.mem_append.1 hc with hw | ht
          · exact Or.inl (mem_takeWhile_pred _ _ _ hw)
          · rw [hsb] at ht
            have : (c1 :: c2 :: c3 :: rest').take 3 = [c1, c2, c3] := rfl
            rw [this] at ht
            rcases List.mem_cons.1 ht with rfl | ht1
            · exact Or.inr (Or.inl hb1)
            · rcases List.mem_cons.1 ht1 with rfl | ht2
              · exact Or.inr (Or.inr (Or.inl hb2))
              · rw [List.mem_singleton] at ht2
                subst ht2
                exact Or.inr (Or.inr (Or.inr hb3))
      · rename_i hbis
        have hnum := afterBis_number _ _ _ _ _ h
        refine ⟨_, [], hnum, hds, ?_, ?_⟩
        · intro c hc
          exact mem_takeWhile_pred _ _ _ hc
        · intro c hc
          exact absurd hc (List.not_mem_nil c)

theorem attemptArt_number (s : Str) (parts : ArticleParts) (rest : Str)
    (h : attemptArt s = some (parts, rest)) : NumShape parts := by
  rw [attemptArt] at h
  split at h
  · rename_i heq
    rcases Option.bind_eq_some.1 heq with ⟨s1, _, hkw⟩
    exact attemptAfterKw_number s1 parts rest (h ▸ hkw)
  · split at h
    · rename_i heq
      rcases Option.bind_eq_some.1 heq with ⟨s1, _, hkw⟩
      exact attemptAfterKw_number s1 parts rest (h ▸ hkw)
    · rcases Option.bind_eq_some.1 h with ⟨s1, _, hkw⟩
      exact attemptAfterKw_number s1 parts rest hkw

theorem scanArts_number :
    ∀ (fuel : Nat) (s : Str) (pos : Nat) (idx : Nat) (parts : ArticleParts),
      (idx, parts) ∈ scanArts fuel s pos → NumShape parts := by
  intro fuel
  induction fuel with
  | zero => intro s pos idx parts h; exact absurd h (List.not_mem_nil _)
  | succ fuel ih =>
    intro s pos idx parts h
    match s with
    | [] => exact absurd h (List.not_mem_nil _)
    | c :: t =>
      rw [scanArts] at h
      split at h
      · rename_i parts' rest' hatt
        rcases List.mem_cons.1 h with hhead | htail
        · have : parts = parts' := (Prod.mk.injEq _ _ _ _ ▸ hhead).2
          exact this ▸ attemptArt_number _ _ _ hatt
        · exact ih _ _ _ _ htail
      · exact ih _ _ _ _ h

theorem emittedBases_wf (lawInfo : LawInfo) :
    ∀ (ms : List (Nat × ArticleParts)), (∀ m ∈ ms, NumShape m.2) →
      ∀ b ∈ emittedBases lawInfo ms, wfBase lawInfo.code b := by
  intro ms
  induction ms with
  | nil => intro _ b hb; exact absurd hb (List.not_mem_nil b)
  | cons m ms ih =>
    intro hms b hb
    rcases m with ⟨idx, parts⟩
    rw [emittedBases] at hb
    split at hb
    · exact ih (fun q hq => hms q (List.mem_cons_of_mem _ hq)) b hb
    · rename_i hne
      rcases List.mem_cons.1 hb with rfl | hb1
      · rcases hms (idx, parts) (List.mem_cons_self _ _) with ⟨ds, bs, hnum, hds, hdig, hbs⟩
        refine ⟨(trimList parts.numberRaw).filter (fun c => ¬ isWsChar c), rfl, ?_, ?_⟩
        · rcases List.exists_mem_of_ne_nil ds hds with ⟨d0, hd0⟩
          have hd0w : isWsChar d0 = false := digit_not_ws d0 (hdig d0 hd0)
          have hd0mem : d0 ∈ parts.numberRaw := by
            rw [hnum]
            exact List.mem_append_left _ hd0
          have : d0 ∈ (trimList parts.numberRaw).filter (fun c => ¬ isWsChar c) := by
            rw [List.mem_filter]
            exact ⟨mem_trimList _ _ hd0mem hd0w, by simp [hd0w]⟩
          exact List.ne_nil_of_mem this
        · intro hdash
          rw [List.mem_filter] at hdash
          have hmem : '-' ∈ parts.numberRaw := mem_of_mem_trimList _ _ hdash.1
          rw [hnum] at hmem
          rcases List.mem_append.1 hmem with hin | hin
          · exact absurd (hdig '-' hin) (by decide)
          · rcases hbs '-' hin with hw | hf | hf | hf
            · exact absurd hw (by decide)
            · exact absurd hf (by decide)
            · exact absurd hf (by decide)
            · exact absurd hf (by decide)
      · exact ih (fun q hq => hms q (List.mem_cons_of_mem _ hq)) b hb1

/-- C6.  For every normalized document text, the ids of the chunks emitted by
the primary strategy follow the documented suffixing rule — the base id
`{code}-art-{number}` of each emitted match is suffixed with `-{k}` exactly
when `k > 0` prior matches produced the same base id, the first occurrence
carrying no suffix, in insertion order — and all emitted ids are pairwise
distinct. -/
theorem primaryChunks_ids (nt : Str) (lawInfo : LawInfo) (sourceFile : Str) :
    (primaryChunks nt lawInfo sourceFile).map (fun c => c.id) =
      canonicalIds (emittedBases lawInfo (articleMatches nt)) ∧
    ((primaryChunks nt lawInfo sourceFile).map (fun c => c.id)).Nodup := by
  have hids : (primaryChunks nt lawInfo sourceFile).map (fun c => c.id) =
      canonicalIds (emittedBases lawInfo (articleMatches nt)) := by
    rw [primaryChunks, canonicalIds]
    apply chunksFromMatches_ids
    intro b
    simp [seenGet]
  refine ⟨hids, ?_⟩
  rw [hids, canonicalIds]
  apply canonGo_nodup lawInfo.code
  apply emittedBases_wf
  intro m hm
  rcases m with ⟨idx, parts⟩
  exact scanArts_number _ _ _ idx parts hm

end LegalBot
